import Mathlib

/-!
Verification of the rio virtual-path and filesystem layer.

The path type of src/path.rs stores a plain separator-joined string; we embed
path strings as `List Char`, with the single separator character given by the
byte b'/'.  The component iterator (struct `Components { path, i, j }`) is
embedded with the same two cursor fields, and each of its `while` loops
becomes a bounded recursion: a loop that increments `i` (or decrements `j`)
while `i < j` can run at most `j - i` iterations, so the loop variant
`j - i` is passed as explicit fuel (`advanceWhileAux` / `retreatWhileAux`)
and the wrappers start it at exactly `j - i`.  The lemmas
`advanceWhileAux_spec` / `retreatWhileAux_spec` below prove any fuel of at
least `j - i` gives the fuel-independent loop fixpoint, so the bounded
recursion computes the loop's true result.
-/

namespace Rio

/-- State of `Components<'a>` from src/path.rs: the path bytes and the two
cursors `i` (front) and `j` (back). -/
structure Components where
  path : List Char
  i : Nat
  j : Nat
deriving DecidableEq

/-- Loop body of `while self.i < self.j && cond(self.path[self.i]) { self.i += 1 }`,
with the loop variant `j - i` as fuel. -/
def advanceWhileAux (p : Char → Bool) : Nat → Components → Components
  | 0, c => c
  | fuel + 1, c =>
    if c.i < c.j ∧ p (c.path.getD c.i ' ') then
      advanceWhileAux p fuel ⟨c.path, c.i + 1, c.j⟩
    else c

/-- The front-cursor scanning loop: used for `trim_left` (with the predicate
"is a separator") and for the component scan in `Iterator::next` (with
"is not a separator"). -/
def advanceWhile (p : Char → Bool) (c : Components) : Components :=
  advanceWhileAux p (c.j - c.i) c

/-- Loop body of `while self.i < self.j && cond(self.path[self.j - 1]) { self.j -= 1 }`,
with the loop variant `j - i` as fuel. -/
def retreatWhileAux (p : Char → Bool) : Nat → Components → Components
  | 0, c => c
  | fuel + 1, c =>
    if c.i < c.j ∧ p (c.path.getD (c.j - 1) ' ') then
      retreatWhileAux p fuel ⟨c.path, c.i, c.j - 1⟩
    else c

/-- The back-cursor scanning loop: used for `trim_right` and for the component
scan in `DoubleEndedIterator::next_back`. -/
def retreatWhile (p : Char → Bool) (c : Components) : Components :=
  retreatWhileAux p (c.j - c.i) c

/-- `Components::as_path`: the unconsumed slice `&self.path[self.i..self.j]`. -/
def Components.as_path (c : Components) : List Char :=
  (c.path.take c.j).drop c.i

/-- `<Components as Iterator>::next` from src/path.rs: `trim_left`, scan one
component, `trim_left` again; returns the component `path[start..end]` (or
`None` when nothing was scanned) together with the updated iterator state. -/
def Components.next (c : Components) : Option (List Char) × Components :=
  let c0 := advanceWhile (fun a => a == '/') c
  let start := c0.i
  let c1 := advanceWhile (fun a => a != '/') c0
  let stop := c1.i
  let c2 := advanceWhile (fun a => a == '/') c1
  if start = stop then (none, c2)
  else (some ((c.path.take stop).drop start), c2)

/-- `<Components as DoubleEndedIterator>::next_back` from src/path.rs:
`trim_right`, scan one component backwards, `trim_right` again. -/
def Components.next_back (c : Components) : Option (List Char) × Components :=
  let c0 := retreatWhile (fun a => a == '/') c
  let stop := c0.j
  let c1 := retreatWhile (fun a => a != '/') c0
  let start := c1.j
  let c2 := retreatWhile (fun a => a == '/') c1
  if start = stop then (none, c2)
  else (some ((c.path.take stop).drop start), c2)

/-- `Path::components`: a fresh iterator over the whole string. -/
def Path.components (p : List Char) : Components :=
  ⟨p, 0, p.length⟩

/-- `PathBuf::push` from src/path.rs: append the segment, inserting a
separator only when the buffer does not already end with one and the segment
does not already start with one. -/
def PathBuf.push (buf : List Char) (p : List Char) : List Char :=
  if buf.getLast? = some '/' then buf ++ p
  else if p.head? = some '/' then buf ++ p
  else buf ++ '/' :: p

/-- Pushing a sequence of segments, in order, onto `PathBuf::new()`. -/
def PathBuf.pushAll (segs : List (List Char)) : List Char :=
  segs.foldl PathBuf.push []

/-- The number of separator characters at the join point of a `push`: any
separator the buffer already ends with, plus any inserted one (read off the
length of the result), plus any separator the segment starts with. -/
def joinSeps (b s : List Char) : Nat :=
  (if b.getLast? = some '/' then 1 else 0)
    + ((PathBuf.push b s).length - (b.length + s.length))
    + (if s.head? = some '/' then 1 else 0)

/-- `Path::parent` from src/path.rs: take one component from the back; if one
was there, the parent is the iterator's remaining `as_path()`. -/
def Path.parent (p : List Char) : Option (List Char) :=
  match (Path.components p).next_back with
  | (some _, c2) => some c2.as_path
  | (none, _) => none

/-- `Path::file_name` from src/path.rs: the last component, if any. -/
def Path.file_name (p : List Char) : Option (List Char) :=
  ((Path.components p).next_back).1

/-- `Path::extension` from src/path.rs: on the file name, `rsplit('.')` yields
first the text after the last dot; the extension is that text exactly when a
second piece exists, i.e. exactly when the file name contains a dot. -/
def Path.extension (p : List Char) : Option (List Char) :=
  (Path.file_name p).bind fun fname =>
    if '.' ∈ fname then some (fname.rtakeWhile (fun a => a != '.')) else none

/-- One consumption step on the iterator: `true` is a forward `next()`,
`false` a backward `next_back()` (the yielded component is discarded). -/
def stepDir (c : Components) (d : Bool) : Components :=
  if d then (Components.next c).2 else (Components.next_back c).2

/-- A whole sequence of forward/backward consumptions, applied in order. -/
def applyDirs (c : Components) (ds : List Bool) : Components :=
  ds.foldl stepDir c

/-- Collecting the iterator: repeatedly call `next` until it yields `None`,
with fuel (each `Some` strictly advances the front cursor, so `j - i` steps
always suffice; `collectComponents_eq_splitComps` proves the fuelled run
computes the full component sequence). -/
def collectFrom : Nat → Components → List (List Char)
  | 0, _ => []
  | fuel + 1, c =>
    match c.next with
    | (none, _) => []
    | (some x, c2) => x :: collectFrom fuel c2

/-- The component sequence of an iterator, as collected by iterating `next`. -/
def collectComponents (c : Components) : List (List Char) :=
  collectFrom (c.j - c.i) c

/-- Specification-level component splitting: drop separators, then the next
component is the maximal separator-free run.  (Fuelled for computability;
one round always consumes at least one character.) -/
def splitCompsF : Nat → List Char → List (List Char)
  | 0, _ => []
  | fuel + 1, r =>
    let r1 := r.dropWhile (fun a => a == '/')
    match r1 with
    | [] => []
    | _ :: _ => r1.takeWhile (fun a => a != '/') :: splitCompsF fuel (r1.dropWhile (fun a => a != '/'))

/-- The component sequence of a path string (specification-level). -/
def splitComps (r : List Char) : List (List Char) :=
  splitCompsF r.length r

/-- The remainder of the slice after one forward `next` (specification). -/
def fwdS (r : List Char) : List Char :=
  ((r.dropWhile (fun a => a == '/')).dropWhile (fun a => a != '/')).dropWhile (fun a => a == '/')

/-- The component a forward `next` yields (specification; `[]` means none). -/
def nextCompS (r : List Char) : List Char :=
  (r.dropWhile (fun a => a == '/')).takeWhile (fun a => a != '/')

/-- The remainder of the slice after one backward `next_back` (specification). -/
def bwdS (r : List Char) : List Char :=
  ((r.rdropWhile (fun a => a == '/')).rdropWhile (fun a => a != '/')).rdropWhile (fun a => a == '/')

/-- The component a backward `next_back` yields (specification). -/
def backCompS (r : List Char) : List Char :=
  (r.rdropWhile (fun a => a == '/')).rtakeWhile (fun a => a != '/')

/-- One consumption step on the slice (specification): forward or backward. -/
def stepS (r : List Char) (d : Bool) : List Char :=
  if d then fwdS r else bwdS r

/-- Well-formed iterator state: cursors within bounds. -/
def Wf (c : Components) : Prop :=
  c.i ≤ c.j ∧ c.j ≤ c.path.length

/-! ### The filesystem capability layer (src/fs.rs) -/

/-- `FileType` from src/fs.rs. -/
inductive FileType where
  | Dir : FileType
  | File : FileType
deriving DecidableEq

/-- `FileType::is_dir`. -/
def FileType.is_dir : FileType → Bool
  | FileType.Dir => true
  | _ => false

/-- `FileType::is_file`. -/
def FileType.is_file : FileType → Bool
  | FileType.File => true
  | _ => false

/-- `Result::unwrap_or`. -/
def unwrapOr {ε α : Type} : Except ε α → α → α
  | Except.ok a, _ => a
  | Except.error _, d => d

/-- The `FSRead::exists` default method: `self.file_type(path).is_ok()`.  The
trait default methods only use `Self` through its `file_type`, so they are
embedded as functions of an arbitrary `file_type` map. -/
def fsExists {π ε : Type} (fileType : π → Except ε FileType) (p : π) : Bool :=
  (fileType p).isOk

/-- The `FSRead::is_file` default method:
`self.file_type(path).map(|t| t.is_file()).unwrap_or(false)`. -/
def fsIsFile {π ε : Type} (fileType : π → Except ε FileType) (p : π) : Bool :=
  unwrapOr ((fileType p).map FileType.is_file) false

/-- The `FSRead::is_dir` default method:
`self.file_type(path).map(|t| t.is_dir()).unwrap_or(false)`. -/
def fsIsDir {π ε : Type} (fileType : π → Except ε FileType) (p : π) : Bool :=
  unwrapOr ((fileType p).map FileType.is_dir) false

/-! ### The native backend (src/native.rs)

Real (OS) paths are modelled component-wise, as the list of file names below
the filesystem root; `std::path::PathBuf::push` with a bare file name appends
exactly one component. -/

/-- `Native`: the backend state, its real root directory. -/
structure Native where
  inner : List (List Char)
deriving DecidableEq

/-- `Native::path`: clone the root and `push` each component of the virtual
path onto it, in iterator order. -/
def Native.path (n : Native) (p : List Char) : List (List Char) :=
  (collectComponents (Path.components p)).foldl (fun acc part => acc ++ [part]) n.inner

/-- `Path::to_str` on a relative real path: its components joined by `/`. -/
def renderReal : List (List Char) → List Char
  | [] => []
  | [s] => s
  | s :: t => s ++ '/' :: renderReal t

/-- `Native::unpath`: `relative_from` strips the root prefix component-wise,
the remainder is rendered to a string and wrapped as a virtual `PathBuf`;
`None` when the root is not a prefix of the real path. -/
def Native.unpath (n : Native) (r : List (List Char)) : Option (List Char) :=
  if n.inner <+: r then some (renderReal (r.drop n.inner.length)) else none

/-- A qualified path (`QPath` from src/fs.rs): a virtual path bound to the
backend that produced it. -/
structure QPath where
  path : List Char
  parent : Native
deriving DecidableEq

/-- `FSRead::qualified`: bind a bare path to this backend, with no check. -/
def Native.qualified (n : Native) (p : List Char) : QPath :=
  ⟨p, n⟩

/-- One call of `<ReadDir as Iterator>::next` from src/native.rs: loop over
the underlying entries; an entry whose read errored (`res.ok()`) or whose
real path cannot be re-expressed under the root (`unpath`) is skipped; the
first translatable entry is yielded via `self.parent.qualified(p)`. -/
def readDirStep {ε : Type} (n : Native) :
    List (Except ε (List (List Char))) → Option (QPath × List (Except ε (List (List Char))))
  | [] => none
  | res :: rest =>
    match (Except.toOption res).bind n.unpath with
    | some p => some (n.qualified p, rest)
    | none => readDirStep n rest

/-- Draining the `ReadDir` iterator to its end: the full listing it yields
(`drainDir_step` below proves this is the iteration of `readDirStep`). -/
def drainDir {ε : Type} (n : Native) : List (Except ε (List (List Char))) → List QPath
  | [] => []
  | res :: rest =>
    match (Except.toOption res).bind n.unpath with
    | some p => n.qualified p :: drainDir n rest
    | none => drainDir n rest

/-- `<Native as FSRead>::read_dir`: resolve the path, ask the host filesystem
(`realRD`) for the real listing, and on success wrap the iterator state; an
error opening the directory is returned unchanged. -/
def Native.read_dir {ε : Type} (n : Native)
    (realRD : List (List Char) → Except ε (List (Except ε (List (List Char)))))
    (p : List Char) : Except ε (List (Except ε (List (List Char))) × Native) :=
  (realRD (n.path p)).map (fun dirs => (dirs, n))

/-! ### The scanning loops, characterised on the unconsumed slice -/

theorem as_path_length (c : Components) (hwf : Wf c) :
    c.as_path.length = c.j - c.i := by
  obtain ⟨h1, h2⟩ := hwf
  simp [Components.as_path, List.length_drop, List.length_take]
  omega

theorem as_path_cons (path : List Char) (i j : Nat) (h1 : i < j) (h2 : j ≤ path.length) :
    Components.as_path ⟨path, i, j⟩ =
      path.getD i ' ' :: Components.as_path ⟨path, i + 1, j⟩ := by
  have hi : i < (path.take j).length := by
    simp [List.length_take]; omega
  have hd : path.getD i ' ' = (path.take j)[i] := by
    rw [List.getElem_take]
    simp [List.getD_eq_getElem?_getD, List.getElem?_eq_getElem (by omega : i < path.length)]
  rw [Components.as_path, List.drop_eq_getElem_cons hi, hd]
  rfl

theorem as_path_concat (path : List Char) (i j : Nat) (h1 : i < j) (h2 : j ≤ path.length) :
    Components.as_path ⟨path, i, j⟩ =
      Components.as_path ⟨path, i, j - 1⟩ ++ [path.getD (j - 1) ' '] := by
  have hj : j - 1 < path.length := by omega
  have ht : path.take j = path.take (j - 1) ++ [path[j - 1]] := by
    conv_lhs => rw [show j = (j - 1) + 1 by omega]
    rw [List.take_succ, List.getElem?_eq_getElem hj]
    rfl
  have hlen : (path.take (j - 1)).length = j - 1 := by
    simp [List.length_take]; omega
  rw [Components.as_path, ht, List.drop_append_eq_append_drop, hlen]
  have : i - (j - 1) = 0 := by omega
  rw [this]
  simp [Components.as_path, List.getD_eq_getElem?_getD, List.getElem?_eq_getElem hj]

theorem advanceWhileAux_spec (p : Char → Bool) (fuel : Nat) (c : Components)
    (hwf : Wf c) (hfuel : c.j - c.i ≤ fuel) :
    advanceWhileAux p fuel c = ⟨c.path, c.i + (c.as_path.takeWhile p).length, c.j⟩ := by
  induction fuel generalizing c with
  | zero =>
    obtain ⟨h1, h2⟩ := hwf
    have hij : c.i = c.j := by omega
    have : c.as_path = [] := by
      have := as_path_length c ⟨h1, h2⟩
      cases h : c.as_path with
      | nil => rfl
      | cons a t => rw [h] at this; simp at this; omega
    rw [advanceWhileAux, this]
    simp
  | succ fuel ih =>
    rw [advanceWhileAux]
    by_cases h : c.i < c.j ∧ p (c.path.getD c.i ' ')
    · rw [if_pos h]
      obtain ⟨hlt, hp⟩ := h
      obtain ⟨h1, h2⟩ := hwf
      have hwf2 : Wf ⟨c.path, c.i + 1, c.j⟩ :=
        ⟨show c.i + 1 ≤ c.j by omega, show c.j ≤ c.path.length from h2⟩
      have hfuel2 : c.j - (c.i + 1) ≤ fuel := by omega
      have htw : c.as_path.takeWhile p =
          c.path.getD c.i ' ' :: (Components.as_path ⟨c.path, c.i + 1, c.j⟩).takeWhile p := by
        rw [show c.as_path = Components.as_path c from rfl,
          as_path_cons c.path c.i c.j hlt h2, List.takeWhile_cons_of_pos hp]
      rw [ih ⟨c.path, c.i + 1, c.j⟩ hwf2 hfuel2, htw, List.length_cons]
      show Components.mk c.path
        (c.i + 1 + ((Components.as_path ⟨c.path, c.i + 1, c.j⟩).takeWhile p).length) c.j = _
      rw [Components.mk.injEq]
      exact ⟨rfl, by omega, rfl⟩
    · rw [if_neg h]
      have : c.as_path.takeWhile p = [] := by
        rcases Nat.lt_or_ge c.i c.j with hlt | hge
        · have hp : ¬ p (c.path.getD c.i ' ') = true := fun hp => h ⟨hlt, hp⟩
          rw [show c.as_path = Components.as_path c from rfl,
            as_path_cons c.path c.i c.j hlt hwf.2, List.takeWhile_cons_of_neg hp]
        · have : c.as_path = [] := by
            have := as_path_length c hwf
            cases hh : c.as_path with
            | nil => rfl
            | cons a t => rw [hh] at this; simp at this; omega
          rw [this]; rfl
      rw [this]
      simp

theorem advanceWhile_spec (p : Char → Bool) (c : Components) (hwf : Wf c) :
    advanceWhile p c = ⟨c.path, c.i + (c.as_path.takeWhile p).length, c.j⟩ :=
  advanceWhileAux_spec p (c.j - c.i) c hwf (Nat.le_refl _)

theorem retreatWhileAux_spec (p : Char → Bool) (fuel : Nat) (c : Components)
    (hwf : Wf c) (hfuel : c.j - c.i ≤ fuel) :
    retreatWhileAux p fuel c = ⟨c.path, c.i, c.j - (c.as_path.rtakeWhile p).length⟩ := by
  induction fuel generalizing c with
  | zero =>
    obtain ⟨h1, h2⟩ := hwf
    have : c.as_path = [] := by
      have := as_path_length c ⟨h1, h2⟩
      cases h : c.as_path with
      | nil => rfl
      | cons a t => rw [h] at this; simp at this; omega
    rw [retreatWhileAux, this]
    have : (List.rtakeWhile p ([] : List Char)).length = 0 := by
      rw [List.rtakeWhile_nil]; rfl
    rw [this, Components.mk.injEq]
    exact ⟨rfl, rfl, by omega⟩
  | succ fuel ih =>
    rw [retreatWhileAux]
    by_cases h : c.i < c.j ∧ p (c.path.getD (c.j - 1) ' ')
    · rw [if_pos h]
      obtain ⟨hlt, hp⟩ := h
      obtain ⟨h1, h2⟩ := hwf
      have hwf2 : Wf ⟨c.path, c.i, c.j - 1⟩ :=
        ⟨show c.i ≤ c.j - 1 by omega, show c.j - 1 ≤ c.path.length by omega⟩
      have hfuel2 : (c.j - 1) - c.i ≤ fuel := by omega
      have htw : c.as_path.rtakeWhile p =
          (Components.as_path ⟨c.path, c.i, c.j - 1⟩).rtakeWhile p ++ [c.path.getD (c.j - 1) ' '] := by
        rw [show c.as_path = Components.as_path c from rfl,
          as_path_concat c.path c.i c.j hlt h2, List.rtakeWhile_concat_pos _ _ _ hp]
      rw [ih ⟨c.path, c.i, c.j - 1⟩ hwf2 hfuel2, htw, List.length_append]
      show Components.mk c.path c.i (c.j - 1 - ((Components.as_path ⟨c.path, c.i, c.j - 1⟩).rtakeWhile p).length) = _
      rw [Components.mk.injEq]
      exact ⟨rfl, rfl, by simp; omega⟩
    · rw [if_neg h]
      have : c.as_path.rtakeWhile p = [] := by
        rcases Nat.lt_or_ge c.i c.j with hlt | hge
        · have hp : ¬ p (c.path.getD (c.j - 1) ' ') = true := fun hp => h ⟨hlt, hp⟩
          rw [show c.as_path = Components.as_path c from rfl,
            as_path_concat c.path c.i c.j hlt hwf.2, List.rtakeWhile_concat_neg _ _ _ hp]
        · have : c.as_path = [] := by
            have := as_path_length c hwf
            cases hh : c.as_path with
            | nil => rfl
            | cons a t => rw [hh] at this; simp at this; omega
          rw [this, List.rtakeWhile_nil]
      rw [this]
      simp

theorem retreatWhile_spec (p : Char → Bool) (c : Components) (hwf : Wf c) :
    retreatWhile p c = ⟨c.path, c.i, c.j - (c.as_path.rtakeWhile p).length⟩ :=
  retreatWhileAux_spec p (c.j - c.i) c hwf (Nat.le_refl _)

theorem dropWhile_eq_drop (p : Char → Bool) (s : List Char) :
    s.dropWhile p = s.drop (s.takeWhile p).length := by
  have h := List.takeWhile_append_dropWhile p s
  calc s.dropWhile p
      = (s.takeWhile p ++ s.dropWhile p).drop (s.takeWhile p).length :=
        (List.drop_left' rfl).symm
    _ = s.drop (s.takeWhile p).length := by rw [h]

theorem takeWhile_eq_take (p : Char → Bool) (s : List Char) :
    s.takeWhile p = s.take (s.takeWhile p).length := by
  have h := List.takeWhile_append_dropWhile p s
  calc s.takeWhile p
      = (s.takeWhile p ++ s.dropWhile p).take (s.takeWhile p).length :=
        (List.take_left' rfl).symm
    _ = s.take (s.takeWhile p).length := by rw [h]

theorem rdropWhile_append_rtakeWhile (p : Char → Bool) (s : List Char) :
    s.rdropWhile p ++ s.rtakeWhile p = s := by
  rw [List.rdropWhile, List.rtakeWhile, ← List.reverse_append,
    List.takeWhile_append_dropWhile, List.reverse_reverse]

theorem rtakeWhile_eq_drop (p : Char → Bool) (s : List Char) :
    s.rtakeWhile p = s.drop (s.length - (s.rtakeWhile p).length) :=
  List.suffix_iff_eq_drop.mp (List.rtakeWhile_suffix _ _)

theorem rdropWhile_eq_take (p : Char → Bool) (s : List Char) :
    s.rdropWhile p = s.take (s.length - (s.rtakeWhile p).length) := by
  have happ := rdropWhile_append_rtakeWhile p s
  have hlen : (s.rdropWhile p).length + (s.rtakeWhile p).length = s.length := by
    rw [← List.length_append, happ]
  calc s.rdropWhile p
      = s.take (s.rdropWhile p).length := List.prefix_iff_eq_take.mp (List.rdropWhile_prefix _ _)
    _ = s.take (s.length - (s.rtakeWhile p).length) := by
        rw [show (s.rdropWhile p).length = s.length - (s.rtakeWhile p).length by omega]

theorem as_path_add (path : List Char) (i j n : Nat) :
    Components.as_path ⟨path, i + n, j⟩ = (Components.as_path ⟨path, i, j⟩).drop n := by
  show (path.take j).drop (i + n) = ((path.take j).drop i).drop n
  rw [List.drop_drop]

theorem as_path_sub (path : List Char) (i j n : Nat) :
    Components.as_path ⟨path, i, j - n⟩ =
      (Components.as_path ⟨path, i, j⟩).take ((j - n) - i) := by
  show (path.take (j - n)).drop i = ((path.take j).drop i).take ((j - n) - i)
  rw [List.drop_take, List.drop_take, List.take_take]
  rw [show min ((j - n) - i) (j - i) = (j - n) - i by omega]

theorem slice_take (path : List Char) (s j n : Nat) (hn : s + n ≤ j) :
    (path.take (s + n)).drop s = (Components.as_path ⟨path, s, j⟩).take n := by
  show (path.take (s + n)).drop s = ((path.take j).drop s).take n
  rw [List.drop_take, List.drop_take, List.take_take]
  rw [show (s + n) - s = n by omega, show min n (j - s) = n by omega]

theorem slice_rdrop (path : List Char) (i j0 n : Nat) (hi : i ≤ j0) (hn : n ≤ j0 - i) :
    (path.take j0).drop (j0 - n) = (Components.as_path ⟨path, i, j0⟩).drop ((j0 - i) - n) := by
  show _ = ((path.take j0).drop i).drop ((j0 - i) - n)
  rw [List.drop_drop, show i + ((j0 - i) - n) = j0 - n by omega]

/-! ### `next` and `next_back`, characterised on the unconsumed slice -/

theorem next_spec (c : Components) (hwf : Wf c) :
    ∃ i2, c.next = ((if nextCompS c.as_path = [] then none
        else some (nextCompS c.as_path)), ⟨c.path, i2, c.j⟩)
      ∧ c.i ≤ i2 ∧ i2 ≤ c.j
      ∧ Components.as_path ⟨c.path, i2, c.j⟩ = fwdS c.as_path
      ∧ (nextCompS c.as_path ≠ [] → c.i < i2) := by
  obtain ⟨h1, h2⟩ := hwf
  have hrlen : c.as_path.length = c.j - c.i := as_path_length c ⟨h1, h2⟩
  have hn0 : (c.as_path.takeWhile (fun a => a == '/')).length ≤ c.j - c.i := by
    rw [← hrlen]; exact ((List.takeWhile_prefix _).sublist).length_le
  have hwf0 : Wf ⟨c.path, c.i + (c.as_path.takeWhile (fun a => a == '/')).length, c.j⟩ :=
    ⟨show c.i + (c.as_path.takeWhile (fun a => a == '/')).length ≤ c.j by omega,
     show c.j ≤ c.path.length from h2⟩
  have hs0 : Components.as_path ⟨c.path, c.i + (c.as_path.takeWhile (fun a => a == '/')).length, c.j⟩
      = c.as_path.dropWhile (fun a => a == '/') := by
    rw [as_path_add, ← dropWhile_eq_drop]
  have e0 : advanceWhile (fun a => a == '/') c
      = ⟨c.path, c.i + (c.as_path.takeWhile (fun a => a == '/')).length, c.j⟩ :=
    advanceWhile_spec (fun a => a == '/') c ⟨h1, h2⟩
  have hlen0 : (c.as_path.dropWhile (fun a => a == '/')).length
      = (c.j - c.i) - (c.as_path.takeWhile (fun a => a == '/')).length := by
    rw [dropWhile_eq_drop, List.length_drop, hrlen]
  have hn1 : (nextCompS c.as_path).length ≤ (c.as_path.dropWhile (fun a => a == '/')).length :=
    ((List.takeWhile_prefix _).sublist).length_le
  have hwf1 : Wf ⟨c.path, c.i + (c.as_path.takeWhile (fun a => a == '/')).length
      + (nextCompS c.as_path).length, c.j⟩ :=
    ⟨show c.i + (c.as_path.takeWhile (fun a => a == '/')).length
        + (nextCompS c.as_path).length ≤ c.j by omega,
     show c.j ≤ c.path.length from h2⟩
  have e1 : advanceWhile (fun a => a != '/')
        ⟨c.path, c.i + (c.as_path.takeWhile (fun a => a == '/')).length, c.j⟩
      = ⟨c.path, c.i + (c.as_path.takeWhile (fun a => a == '/')).length
          + (nextCompS c.as_path).length, c.j⟩ := by
    rw [advanceWhile_spec _ _ hwf0, hs0]
    rfl
  have hs1 : Components.as_path ⟨c.path, c.i + (c.as_path.takeWhile (fun a => a == '/')).length
        + (nextCompS c.as_path).length, c.j⟩
      = (c.as_path.dropWhile (fun a => a == '/')).dropWhile (fun a => a != '/') := by
    rw [as_path_add, hs0,
      show (nextCompS c.as_path).length
        = ((c.as_path.dropWhile (fun a => a == '/')).takeWhile (fun a => a != '/')).length from rfl,
      ← dropWhile_eq_drop]
  have e2 : advanceWhile (fun a => a == '/')
        ⟨c.path, c.i + (c.as_path.takeWhile (fun a => a == '/')).length
          + (nextCompS c.as_path).length, c.j⟩
      = ⟨c.path, c.i + (c.as_path.takeWhile (fun a => a == '/')).length
          + (nextCompS c.as_path).length
          + (((c.as_path.dropWhile (fun a => a == '/')).dropWhile
              (fun a => a != '/')).takeWhile (fun a => a == '/')).length, c.j⟩ := by
    rw [advanceWhile_spec _ _ hwf1, hs1]
  refine ⟨c.i + (c.as_path.takeWhile (fun a => a == '/')).length
      + (nextCompS c.as_path).length
      + (((c.as_path.dropWhile (fun a => a == '/')).dropWhile
          (fun a => a != '/')).takeWhile (fun a => a == '/')).length, ?_, ?_, ?_, ?_, ?_⟩
  · have e0i : (advanceWhile (fun a => a == '/') c).i
        = c.i + (c.as_path.takeWhile (fun a => a == '/')).length := by rw [e0]
    have e1i : (advanceWhile (fun a => a != '/') (advanceWhile (fun a => a == '/') c)).i
        = c.i + (c.as_path.takeWhile (fun a => a == '/')).length
          + (nextCompS c.as_path).length := by rw [e0, e1]
    have efull : advanceWhile (fun a => a == '/')
          (advanceWhile (fun a => a != '/') (advanceWhile (fun a => a == '/') c))
        = ⟨c.path, c.i + (c.as_path.takeWhile (fun a => a == '/')).length
            + (nextCompS c.as_path).length
            + (((c.as_path.dropWhile (fun a => a == '/')).dropWhile
                (fun a => a != '/')).takeWhile (fun a => a == '/')).length, c.j⟩ := by
      rw [e0, e1, e2]
    show (if (advanceWhile (fun a => a == '/') c).i
        = (advanceWhile (fun a => a != '/') (advanceWhile (fun a => a == '/') c)).i
        then ((none : Option (List Char)), advanceWhile (fun a => a == '/')
          (advanceWhile (fun a => a != '/') (advanceWhile (fun a => a == '/') c)))
        else (some ((c.path.take
            ((advanceWhile (fun a => a != '/') (advanceWhile (fun a => a == '/') c)).i)).drop
            ((advanceWhile (fun a => a == '/') c).i)),
          advanceWhile (fun a => a == '/')
            (advanceWhile (fun a => a != '/') (advanceWhile (fun a => a == '/') c)))) = _
    rw [e0i, e1i, efull]
    by_cases hnil : nextCompS c.as_path = []
    · rw [if_pos ?side]
      case side =>
        rw [hnil]
        rfl
      rw [if_pos hnil]
    · rw [if_neg ?side2]
      case side2 =>
        have hne : (nextCompS c.as_path).length ≠ 0 := by
          simpa [List.length_eq_zero] using hnil
        omega
      rw [if_neg hnil]
      rw [Prod.mk.injEq]
      refine ⟨?_, rfl⟩
      rw [Option.some.injEq]
      rw [show c.i + (c.as_path.takeWhile (fun a => a == '/')).length + (nextCompS c.as_path).length
          = (c.i + (c.as_path.takeWhile (fun a => a == '/')).length) + (nextCompS c.as_path).length
          from rfl,
        slice_take c.path _ c.j (nextCompS c.as_path).length (by omega), hs0,
        nextCompS, ← takeWhile_eq_take]
  · omega
  · have hn2 : (((c.as_path.dropWhile (fun a => a == '/')).dropWhile
        (fun a => a != '/')).takeWhile (fun a => a == '/')).length
        ≤ ((c.as_path.dropWhile (fun a => a == '/')).dropWhile (fun a => a != '/')).length :=
      ((List.takeWhile_prefix _).sublist).length_le
    have hlen1 : ((c.as_path.dropWhile (fun a => a == '/')).dropWhile (fun a => a != '/')).length
        = (c.as_path.dropWhile (fun a => a == '/')).length - (nextCompS c.as_path).length := by
      rw [show (nextCompS c.as_path).length
          = ((c.as_path.dropWhile (fun a => a == '/')).takeWhile (fun a => a != '/')).length
          from rfl, dropWhile_eq_drop, List.length_drop]
    omega
  · rw [as_path_add, hs1,
      show (((c.as_path.dropWhile (fun a => a == '/')).dropWhile
          (fun a => a != '/')).takeWhile (fun a => a == '/')).length
        = (((c.as_path.dropWhile (fun a => a == '/')).dropWhile
          (fun a => a != '/')).takeWhile (fun a => a == '/')).length from rfl,
      ← dropWhile_eq_drop]
    rfl
  · intro hnil
    have hne : (nextCompS c.as_path).length ≠ 0 := by
      simpa [List.length_eq_zero] using hnil
    omega

theorem next_back_spec (c : Components) (hwf : Wf c) :
    ∃ j2, c.next_back = ((if backCompS c.as_path = [] then none
        else some (backCompS c.as_path)), ⟨c.path, c.i, j2⟩)
      ∧ c.i ≤ j2 ∧ j2 ≤ c.j
      ∧ Components.as_path ⟨c.path, c.i, j2⟩ = bwdS c.as_path
      ∧ (backCompS c.as_path ≠ [] → j2 < c.j) := by
  obtain ⟨h1, h2⟩ := hwf
  have hrlen : c.as_path.length = c.j - c.i := as_path_length c ⟨h1, h2⟩
  have hn0 : (c.as_path.rtakeWhile (fun a => a == '/')).length ≤ c.j - c.i := by
    rw [← hrlen]; exact ((List.rtakeWhile_suffix _ _).sublist).length_le
  have hwf0 : Wf ⟨c.path, c.i, c.j - (c.as_path.rtakeWhile (fun a => a == '/')).length⟩ :=
    ⟨show c.i ≤ c.j - (c.as_path.rtakeWhile (fun a => a == '/')).length by omega,
     show c.j - (c.as_path.rtakeWhile (fun a => a == '/')).length ≤ c.path.length by omega⟩
  have hs0 : Components.as_path
        ⟨c.path, c.i, c.j - (c.as_path.rtakeWhile (fun a => a == '/')).length⟩
      = c.as_path.rdropWhile (fun a => a == '/') := by
    rw [as_path_sub, rdropWhile_eq_take, hrlen,
      show (c.j - (c.as_path.rtakeWhile (fun a => a == '/')).length) - c.i
        = (c.j - c.i) - (c.as_path.rtakeWhile (fun a => a == '/')).length by omega]
  have e0 : retreatWhile (fun a => a == '/') c
      = ⟨c.path, c.i, c.j - (c.as_path.rtakeWhile (fun a => a == '/')).length⟩ :=
    retreatWhile_spec (fun a => a == '/') c ⟨h1, h2⟩
  have hlen0 : (c.as_path.rdropWhile (fun a => a == '/')).length
      = (c.j - c.i) - (c.as_path.rtakeWhile (fun a => a == '/')).length := by
    have happ0 := congrArg List.length
      (rdropWhile_append_rtakeWhile (fun a => a == '/') c.as_path)
    rw [List.length_append, hrlen] at happ0
    omega
  have hn1 : ((c.as_path.rdropWhile (fun a => a == '/')).rtakeWhile (fun a => a != '/')).length
      ≤ (c.as_path.rdropWhile (fun a => a == '/')).length :=
    ((List.rtakeWhile_suffix _ _).sublist).length_le
  have hwf1 : Wf ⟨c.path, c.i, c.j - (c.as_path.rtakeWhile (fun a => a == '/')).length
      - ((c.as_path.rdropWhile (fun a => a == '/')).rtakeWhile (fun a => a != '/')).length⟩ :=
    ⟨show c.i ≤ c.j - (c.as_path.rtakeWhile (fun a => a == '/')).length
        - ((c.as_path.rdropWhile (fun a => a == '/')).rtakeWhile (fun a => a != '/')).length
        by omega,
     show c.j - (c.as_path.rtakeWhile (fun a => a == '/')).length
        - ((c.as_path.rdropWhile (fun a => a == '/')).rtakeWhile (fun a => a != '/')).length
        ≤ c.path.length by omega⟩
  have e1 : retreatWhile (fun a => a != '/')
        ⟨c.path, c.i, c.j - (c.as_path.rtakeWhile (fun a => a == '/')).length⟩
      = ⟨c.path, c.i, c.j - (c.as_path.rtakeWhile (fun a => a == '/')).length
          - ((c.as_path.rdropWhile (fun a => a == '/')).rtakeWhile (fun a => a != '/')).length⟩ := by
    rw [retreatWhile_spec _ _ hwf0, hs0]
  have hs1 : Components.as_path ⟨c.path, c.i,
        c.j - (c.as_path.rtakeWhile (fun a => a == '/')).length
          - ((c.as_path.rdropWhile (fun a => a == '/')).rtakeWhile (fun a => a != '/')).length⟩
      = (c.as_path.rdropWhile (fun a => a == '/')).rdropWhile (fun a => a != '/') := by
    rw [as_path_sub, hs0,
      show (c.j - (c.as_path.rtakeWhile (fun a => a == '/')).length
          - ((c.as_path.rdropWhile (fun a => a == '/')).rtakeWhile (fun a => a != '/')).length) - c.i
        = (c.as_path.rdropWhile (fun a => a == '/')).length
          - ((c.as_path.rdropWhile (fun a => a == '/')).rtakeWhile (fun a => a != '/')).length
        by omega,
      ← rdropWhile_eq_take]
  have hlen1 : ((c.as_path.rdropWhile (fun a => a == '/')).rdropWhile (fun a => a != '/')).length
      = (c.j - c.i) - (c.as_path.rtakeWhile (fun a => a == '/')).length
        - ((c.as_path.rdropWhile (fun a => a == '/')).rtakeWhile (fun a => a != '/')).length := by
    have happ1 := congrArg List.length
      (rdropWhile_append_rtakeWhile (fun a => a != '/') (c.as_path.rdropWhile (fun a => a == '/')))
    rw [List.length_append, hlen0] at happ1
    omega
  have hn2 : (((c.as_path.rdropWhile (fun a => a == '/')).rdropWhile
        (fun a => a != '/')).rtakeWhile (fun a => a == '/')).length
      ≤ ((c.as_path.rdropWhile (fun a => a == '/')).rdropWhile (fun a => a != '/')).length :=
    ((List.rtakeWhile_suffix _ _).sublist).length_le
  have e2 : retreatWhile (fun a => a == '/')
        ⟨c.path, c.i, c.j - (c.as_path.rtakeWhile (fun a => a == '/')).length
          - ((c.as_path.rdropWhile (fun a => a == '/')).rtakeWhile (fun a => a != '/')).length⟩
      = ⟨c.path, c.i, c.j - (c.as_path.rtakeWhile (fun a => a == '/')).length
          - ((c.as_path.rdropWhile (fun a => a == '/')).rtakeWhile (fun a => a != '/')).length
          - (((c.as_path.rdropWhile (fun a => a == '/')).rdropWhile
              (fun a => a != '/')).rtakeWhile (fun a => a == '/')).length⟩ := by
    rw [retreatWhile_spec _ _ hwf1, hs1]
  have hraw : (backCompS c.as_path).length
      = ((c.as_path.rdropWhile (fun a => a == '/')).rtakeWhile (fun a => a != '/')).length := rfl
  refine ⟨c.j - (c.as_path.rtakeWhile (fun a => a == '/')).length
      - ((c.as_path.rdropWhile (fun a => a == '/')).rtakeWhile (fun a => a != '/')).length
      - (((c.as_path.rdropWhile (fun a => a == '/')).rdropWhile
          (fun a => a != '/')).rtakeWhile (fun a => a == '/')).length, ?_, ?_, ?_, ?_, ?_⟩
  · have e0j : (retreatWhile (fun a => a == '/') c).j
        = c.j - (c.as_path.rtakeWhile (fun a => a == '/')).length := by rw [e0]
    have e1j : (retreatWhile (fun a => a != '/') (retreatWhile (fun a => a == '/') c)).j
        = c.j - (c.as_path.rtakeWhile (fun a => a == '/')).length
          - ((c.as_path.rdropWhile (fun a => a == '/')).rtakeWhile (fun a => a != '/')).length := by
      rw [e0, e1]
    have efull : retreatWhile (fun a => a == '/')
          (retreatWhile (fun a => a != '/') (retreatWhile (fun a => a == '/') c))
        = ⟨c.path, c.i, c.j - (c.as_path.rtakeWhile (fun a => a == '/')).length
            - ((c.as_path.rdropWhile (fun a => a == '/')).rtakeWhile (fun a => a != '/')).length
            - (((c.as_path.rdropWhile (fun a => a == '/')).rdropWhile
                (fun a => a != '/')).rtakeWhile (fun a => a == '/')).length⟩ := by
      rw [e0, e1, e2]
    show (if (retreatWhile (fun a => a != '/') (retreatWhile (fun a => a == '/') c)).j
        = (retreatWhile (fun a => a == '/') c).j
        then ((none : Option (List Char)), retreatWhile (fun a => a == '/')
          (retreatWhile (fun a => a != '/') (retreatWhile (fun a => a == '/') c)))
        else (some ((c.path.take ((retreatWhile (fun a => a == '/') c).j)).drop
            ((retreatWhile (fun a => a != '/') (retreatWhile (fun a => a == '/') c)).j)),
          retreatWhile (fun a => a == '/')
            (retreatWhile (fun a => a != '/') (retreatWhile (fun a => a == '/') c)))) = _
    rw [e0j, e1j, efull]
    by_cases hnil : backCompS c.as_path = []
    · rw [if_pos ?side]
      case side =>
        have hz : ((c.as_path.rdropWhile (fun a => a == '/')).rtakeWhile
            (fun a => a != '/')).length = 0 := by
          rw [← hraw, hnil]
          rfl
        omega
      rw [if_pos hnil]
    · rw [if_neg ?side2]
      case side2 =>
        have hz : ((c.as_path.rdropWhile (fun a => a == '/')).rtakeWhile
            (fun a => a != '/')).length ≠ 0 := by
          rw [← hraw]
          simpa [List.length_eq_zero] using hnil
        omega
      rw [if_neg hnil]
      rw [Prod.mk.injEq]
      refine ⟨?_, rfl⟩
      rw [Option.some.injEq]
      rw [slice_rdrop c.path c.i (c.j - (c.as_path.rtakeWhile (fun a => a == '/')).length)
          ((c.as_path.rdropWhile (fun a => a == '/')).rtakeWhile (fun a => a != '/')).length
          (by omega) (by omega),
        hs0,
        show ((c.j - (c.as_path.rtakeWhile (fun a => a == '/')).length) - c.i)
          - ((c.as_path.rdropWhile (fun a => a == '/')).rtakeWhile (fun a => a != '/')).length
        = (c.as_path.rdropWhile (fun a => a == '/')).length
          - ((c.as_path.rdropWhile (fun a => a == '/')).rtakeWhile (fun a => a != '/')).length
        by omega,
        ← rtakeWhile_eq_drop]
      rfl
  · omega
  · omega
  · rw [as_path_sub, hs1,
      show ((c.j - (c.as_path.rtakeWhile (fun a => a == '/')).length
          - ((c.as_path.rdropWhile (fun a => a == '/')).rtakeWhile (fun a => a != '/')).length
          - (((c.as_path.rdropWhile (fun a => a == '/')).rdropWhile
              (fun a => a != '/')).rtakeWhile (fun a => a == '/')).length)) - c.i
        = ((c.as_path.rdropWhile (fun a => a == '/')).rdropWhile (fun a => a != '/')).length
          - (((c.as_path.rdropWhile (fun a => a == '/')).rdropWhile
              (fun a => a != '/')).rtakeWhile (fun a => a == '/')).length
        by omega,
      ← rdropWhile_eq_take]
    rfl
  · intro hnil
    have hz : ((c.as_path.rdropWhile (fun a => a == '/')).rtakeWhile
        (fun a => a != '/')).length ≠ 0 := by
      rw [← hraw]
      simpa [List.length_eq_zero] using hnil
    omega

/-! ### The specification splitter and the collected iterator -/

theorem splitCompsF_congr : ∀ (f1 : Nat) (r : List Char) (f2 : Nat),
    r.length ≤ f1 → r.length ≤ f2 → splitCompsF f1 r = splitCompsF f2 r := by
  intro f1
  induction f1 with
  | zero =>
    intro r f2 h1 h2
    have hr : r = [] := List.length_eq_zero.mp (Nat.le_zero.mp h1)
    subst hr
    cases f2 <;> rfl
  | succ f1 ih =>
    intro r f2 h1 h2
    cases f2 with
    | zero =>
      have hr : r = [] := List.length_eq_zero.mp (Nat.le_zero.mp h2)
      subst hr
      rfl
    | succ f2 =>
      simp only [splitCompsF]
      cases hd : r.dropWhile (fun a => a == '/') with
      | nil => rfl
      | cons c t =>
        have hc : (c == '/') = false := by
          have h2 := List.head?_dropWhile_not (fun a => a == '/') r
          rw [hd] at h2
          simpa using h2
        have hlt : ((c :: t).dropWhile (fun a => a != '/')).length ≤ t.length := by
          rw [List.dropWhile_cons_of_pos (by simp [bne, hc])]
          exact (List.dropWhile_sublist _).length_le
        have hdr : (r.dropWhile (fun a => a == '/')).length ≤ r.length :=
          (List.dropWhile_sublist _).length_le
        rw [hd] at hdr
        simp only [List.length_cons] at hdr
        rw [List.cons.injEq]
        refine ⟨rfl, ih _ f2 ?_ ?_⟩
        · omega
        · omega

theorem splitComps_nil_of (r : List Char) (h : r.dropWhile (fun a => a == '/') = []) :
    splitComps r = [] := by
  rw [splitComps]
  cases hl : r.length with
  | zero => rfl
  | succ n =>
    simp only [splitCompsF, h]

theorem splitComps_cons_of (r : List Char) (hne : r.dropWhile (fun a => a == '/') ≠ []) :
    splitComps r = (r.dropWhile (fun a => a == '/')).takeWhile (fun a => a != '/')
      :: splitComps ((r.dropWhile (fun a => a == '/')).dropWhile (fun a => a != '/')) := by
  cases hd : r.dropWhile (fun a => a == '/') with
  | nil => exact absurd hd hne
  | cons c t =>
    have hc : (c == '/') = false := by
      have h2 := List.head?_dropWhile_not (fun a => a == '/') r
      rw [hd] at h2
      simpa using h2
    have hdr : (r.dropWhile (fun a => a == '/')).length ≤ r.length :=
      (List.dropWhile_sublist _).length_le
    rw [hd] at hdr
    simp only [List.length_cons] at hdr
    have hrpos : 1 ≤ r.length := by omega
    have hlt : ((c :: t).dropWhile (fun a => a != '/')).length ≤ t.length := by
      rw [List.dropWhile_cons_of_pos (by simp [bne, hc])]
      exact (List.dropWhile_sublist _).length_le
    rw [splitComps]
    rw [show r.length = (r.length - 1) + 1 by omega]
    simp only [splitCompsF, hd]
    rw [List.cons.injEq]
    refine ⟨rfl, ?_⟩
    rw [splitComps]
    exact splitCompsF_congr _ _ _ (by omega) (by omega)

theorem nextCompS_eq_nil_iff (r : List Char) :
    nextCompS r = [] ↔ r.dropWhile (fun a => a == '/') = [] := by
  constructor
  · intro h
    cases hd : r.dropWhile (fun a => a == '/') with
    | nil => rfl
    | cons c t =>
      have hc : (c == '/') = false := by
        have h2 := List.head?_dropWhile_not (fun a => a == '/') r
        rw [hd] at h2
        simpa using h2
      rw [nextCompS, hd, List.takeWhile_cons_of_pos (by simp [bne, hc])] at h
      exact absurd h (List.cons_ne_nil _ _)
  · intro h
    rw [nextCompS, h]
    rfl

theorem splitComps_dropSep (r : List Char) :
    splitComps (r.dropWhile (fun a => a == '/')) = splitComps r := by
  cases hd : r.dropWhile (fun a => a == '/') with
  | nil => rw [splitComps_nil_of r hd]; rfl
  | cons c t =>
    rw [← hd]
    rw [splitComps_cons_of _ (by rw [List.dropWhile_idempotent, hd]; exact List.cons_ne_nil c t),
      splitComps_cons_of r (by rw [hd]; exact List.cons_ne_nil c t),
      List.dropWhile_idempotent]

theorem collectFrom_eq (fuel : Nat) : ∀ (c : Components), Wf c → c.j - c.i ≤ fuel →
    collectFrom fuel c = splitComps c.as_path := by
  induction fuel with
  | zero =>
    intro c hwf h
    have hnil : c.as_path = [] := by
      have := as_path_length c hwf
      exact List.length_eq_zero.mp (by omega)
    rw [collectFrom, hnil]
    exact (splitComps_nil_of [] rfl).symm
  | succ fuel ih =>
    intro c hwf h
    obtain ⟨i2, hnext, hle1, hle2, hslice, hstrict⟩ := next_spec c hwf
    by_cases hnil : nextCompS c.as_path = []
    · rw [if_pos hnil] at hnext
      simp only [collectFrom, hnext]
      exact (splitComps_nil_of _ ((nextCompS_eq_nil_iff _).mp hnil)).symm
    · rw [if_neg hnil] at hnext
      simp only [collectFrom, hnext]
      have hwf2 : Wf ⟨c.path, i2, c.j⟩ := ⟨hle2, hwf.2⟩
      have hfuel2 : c.j - i2 ≤ fuel := by
        have := hstrict hnil
        omega
      rw [ih _ hwf2 hfuel2, hslice]
      rw [splitComps_cons_of c.as_path ((not_iff_not.mpr (nextCompS_eq_nil_iff _)).mp hnil)]
      rw [List.cons.injEq]
      refine ⟨rfl, ?_⟩
      rw [fwdS, splitComps_dropSep]

theorem collectComponents_eq_splitComps (c : Components) (hwf : Wf c) :
    collectComponents c = splitComps c.as_path :=
  collectFrom_eq _ c hwf (Nat.le_refl _)

theorem components_wf (p : List Char) : Wf (Path.components p) :=
  ⟨Nat.zero_le _, Nat.le_refl _⟩

theorem components_as_path (p : List Char) : (Path.components p).as_path = p := by
  show (p.take p.length).drop 0 = p
  rw [List.take_length, List.drop_zero]

theorem collect_components (p : List Char) :
    collectComponents (Path.components p) = splitComps p := by
  rw [collectComponents_eq_splitComps _ (components_wf p), components_as_path]

/-! ### Algebra of the forward and backward remainder maps -/

theorem fwdS_of_sep (r : List Char) (h : r.dropWhile (fun a => a == '/') = []) :
    fwdS r = [] := by
  rw [fwdS, h]
  rfl

theorem dropWhile_append_of_ne (p : Char → Bool) (l1 l2 : List Char)
    (h : l1.dropWhile p ≠ []) :
    (l1 ++ l2).dropWhile p = l1.dropWhile p ++ l2 := by
  rw [List.dropWhile_append, if_neg (by simpa [List.isEmpty_iff] using h)]

theorem fwdS_form (s0 c1 s1 u : List Char)
    (hs0 : ∀ x ∈ s0, x = '/') (hc1ne : c1 ≠ []) (hc1 : ∀ x ∈ c1, x ≠ '/')
    (hs1 : ∀ x ∈ s1, x = '/')
    (hu : u = [] ∨ (s1 ≠ [] ∧ ∃ d u2, u = d :: u2 ∧ d ≠ '/')) :
    fwdS (s0 ++ (c1 ++ (s1 ++ u))) = u := by
  obtain ⟨d1, c1t, rfl⟩ : ∃ d t, c1 = d :: t := by
    cases c1 with
    | nil => exact absurd rfl hc1ne
    | cons d t => exact ⟨d, t, rfl⟩
  have hd1 : d1 ≠ '/' := hc1 d1 (List.mem_cons_self _ _)
  rw [fwdS]
  rw [List.dropWhile_append_of_pos (fun a ha => by simpa using hs0 a ha)]
  rw [List.cons_append, List.dropWhile_cons_of_neg (by simpa using hd1), ← List.cons_append]
  rw [List.dropWhile_append_of_pos (fun a ha => by simpa [bne] using hc1 a ha)]
  rcases hu with rfl | ⟨hs1ne, d, u2, rfl, hd⟩
  · rw [List.append_nil]
    exact List.dropWhile_eq_nil_iff.mpr fun x hx => by
      simpa using hs1 x ((List.dropWhile_sublist _).subset hx)
  · obtain ⟨e1, s1t, rfl⟩ : ∃ e t, s1 = e :: t := by
      cases s1 with
      | nil => exact absurd rfl hs1ne
      | cons e t => exact ⟨e, t, rfl⟩
    have he : e1 = '/' := hs1 e1 (List.mem_cons_self _ _)
    rw [List.cons_append, List.dropWhile_cons_of_neg (by simp [he, bne]), ← List.cons_append]
    rw [List.dropWhile_append_of_pos (fun a ha => by simpa using hs1 a ha)]
    rw [List.dropWhile_cons_of_neg (by simpa using hd)]

theorem fwdS_append (x y : List Char) (h : fwdS x ≠ []) :
    fwdS (x ++ y) = fwdS x ++ y := by
  have h1 : x.dropWhile (fun a => a == '/') ≠ [] := by
    intro hh; exact h (fwdS_of_sep x hh)
  have h2 : (x.dropWhile (fun a => a == '/')).dropWhile (fun a => a != '/') ≠ [] := by
    intro hh; apply h; rw [fwdS, hh]; rfl
  show ((((x ++ y).dropWhile (fun a => a == '/'))).dropWhile
      (fun a => a != '/')).dropWhile (fun a => a == '/') = _
  rw [dropWhile_append_of_ne _ x y h1, dropWhile_append_of_ne _ _ y h2,
    dropWhile_append_of_ne _ _ y h]
  rfl

theorem bwdS_eq_rev (r : List Char) : bwdS r = (fwdS r.reverse).reverse := by
  simp [bwdS, fwdS, List.rdropWhile]

theorem fwdS_nil : fwdS [] = [] := rfl

theorem bwdS_nil : bwdS [] = [] := rfl

theorem bwdS_append (a u : List Char) (h : bwdS u ≠ []) :
    bwdS (a ++ u) = a ++ bwdS u := by
  have h2 : fwdS u.reverse ≠ [] := by
    intro hh; apply h; rw [bwdS_eq_rev, hh]; rfl
  rw [bwdS_eq_rev, List.reverse_append, fwdS_append _ _ h2, List.reverse_append,
    List.reverse_reverse, ← bwdS_eq_rev]

theorem decompPath (r : List Char) :
    (∀ x ∈ r, x = '/') ∨
    ∃ s0 c1 r1, r = s0 ++ (c1 ++ r1) ∧ (∀ x ∈ s0, x = '/') ∧ c1 ≠ []
      ∧ (∀ x ∈ c1, x ≠ '/') ∧ (r1 = [] ∨ ∃ r2, r1 = '/' :: r2) := by
  cases hd : r.dropWhile (fun a => a == '/') with
  | nil =>
    left
    intro x hx
    simpa using List.dropWhile_eq_nil_iff.mp hd x hx
  | cons c t =>
    right
    have hc : (c == '/') = false := by
      have h2 := List.head?_dropWhile_not (fun a => a == '/') r
      rw [hd] at h2
      simpa using h2
    refine ⟨r.takeWhile (fun a => a == '/'), (c :: t).takeWhile (fun a => a != '/'),
      (c :: t).dropWhile (fun a => a != '/'), ?_, ?_, ?_, ?_, ?_⟩
    · conv_lhs => rw [← List.takeWhile_append_dropWhile (fun a => a == '/') r]
      rw [hd, List.takeWhile_append_dropWhile]
    · exact fun x hx => by simpa using List.mem_takeWhile_imp hx
    · rw [List.takeWhile_cons_of_pos (by simp [bne, hc])]
      exact List.cons_ne_nil _ _
    · exact fun x hx => by simpa using List.mem_takeWhile_imp hx
    · cases hdt : (c :: t).dropWhile (fun a => a != '/') with
      | nil => exact Or.inl rfl
      | cons e r2 =>
        right
        have he : (e != '/') = false := by
          have h2 := List.head?_dropWhile_not (fun a => a != '/') (c :: t)
          rw [hdt] at h2
          simpa using h2
        have he2 : e = '/' := by simpa [bne] using he
        exact ⟨r2, by rw [he2]⟩

theorem fwdS_shape (s0 c1 r1 : List Char)
    (hs0 : ∀ x ∈ s0, x = '/') (hc1ne : c1 ≠ []) (hc1 : ∀ x ∈ c1, x ≠ '/')
    (hr1 : r1 = [] ∨ ∃ r2, r1 = '/' :: r2) :
    fwdS (s0 ++ (c1 ++ r1)) = r1.dropWhile (fun a => a == '/') := by
  obtain ⟨d1, c1t, rfl⟩ : ∃ d t, c1 = d :: t := by
    cases c1 with
    | nil => exact absurd rfl hc1ne
    | cons d t => exact ⟨d, t, rfl⟩
  have hd1 : d1 ≠ '/' := hc1 d1 (List.mem_cons_self _ _)
  rw [fwdS]
  rw [List.dropWhile_append_of_pos (fun a ha => by simpa using hs0 a ha)]
  rw [List.cons_append, List.dropWhile_cons_of_neg (by simpa using hd1), ← List.cons_append]
  rw [List.dropWhile_append_of_pos (fun a ha => by simpa [bne] using hc1 a ha)]
  rcases hr1 with rfl | ⟨r2, rfl⟩
  · rfl
  · rw [List.dropWhile_cons_of_neg (by simp [bne])]

theorem fwdS_nil_rev (r : List Char) (h : fwdS r = []) : fwdS r.reverse = [] := by
  rcases decompPath r with hall | ⟨s0, c1, r1, hre, hs0, hc1ne, hc1, hr1⟩
  · apply fwdS_of_sep
    exact List.dropWhile_eq_nil_iff.mpr fun x hx =>
      by simpa using hall x (List.mem_reverse.mp hx)
  · rw [hre, fwdS_shape s0 c1 r1 hs0 hc1ne hc1 hr1] at h
    have hall1 : ∀ x ∈ r1, x = '/' := fun x hx =>
      by simpa using List.dropWhile_eq_nil_iff.mp h x hx
    have hrev : (s0 ++ (c1 ++ r1)).reverse
        = r1.reverse ++ (c1.reverse ++ (s0.reverse ++ [])) := by
      simp [List.reverse_append]
    rw [hre, hrev]
    exact fwdS_form r1.reverse c1.reverse s0.reverse []
      (fun x hx => hall1 x (List.mem_reverse.mp hx))
      (by simpa using hc1ne)
      (fun x hx => hc1 x (List.mem_reverse.mp hx))
      (fun x hx => hs0 x (List.mem_reverse.mp hx))
      (Or.inl rfl)

theorem bwdS_eq_nil_iff (r : List Char) : bwdS r = [] ↔ fwdS r = [] := by
  rw [bwdS_eq_rev, List.reverse_eq_nil_iff]
  constructor
  · intro h
    have h2 := fwdS_nil_rev r.reverse h
    rwa [List.reverse_reverse] at h2
  · exact fwdS_nil_rev r

theorem fwdS_suffix (r : List Char) : fwdS r <:+ r :=
  (List.dropWhile_suffix _).trans ((List.dropWhile_suffix _).trans (List.dropWhile_suffix _))

theorem bwdS_pref (r : List Char) : bwdS r <+: r := by
  rw [bwdS_eq_rev]
  have h2 := List.reverse_prefix.mpr (fwdS_suffix r.reverse)
  simpa using h2

theorem head_of_prefix_ne (q r : List Char) (h : q <+: r) (hq : q ≠ []) :
    q.head? = r.head? := by
  obtain ⟨t, rfl⟩ := h
  cases q with
  | nil => exact absurd rfl hq
  | cons a q2 => rfl

/-- Forward consumption and backward consumption commute on any slice. -/
theorem fwd_bwd_comm (r : List Char) : fwdS (bwdS r) = bwdS (fwdS r) := by
  rcases decompPath r with hall | ⟨s0, c1, r1, hre, hs0, hc1ne, hc1, hr1⟩
  · have h1 : fwdS r = [] :=
      fwdS_of_sep r (List.dropWhile_eq_nil_iff.mpr fun x hx => by simpa using hall x hx)
    have h2 : bwdS r = [] := (bwdS_eq_nil_iff r).mpr h1
    rw [h1, h2]
    rfl
  · subst hre
    obtain ⟨s1, u, hr1split, hs1, hcase⟩ : ∃ s1 u, r1 = s1 ++ u ∧ (∀ x ∈ s1, x = '/')
        ∧ (u = [] ∨ (s1 ≠ [] ∧ ∃ du u2, u = du :: u2 ∧ du ≠ '/')) := by
      refine ⟨r1.takeWhile (fun a => a == '/'), r1.dropWhile (fun a => a == '/'),
        (List.takeWhile_append_dropWhile _ _).symm,
        fun x hx => by simpa using List.mem_takeWhile_imp hx, ?_⟩
      cases hu : r1.dropWhile (fun a => a == '/') with
      | nil => exact Or.inl rfl
      | cons du u2 =>
        right
        constructor
        · rcases hr1 with rfl | ⟨r2, rfl⟩
          · simp at hu
          · rw [List.takeWhile_cons_of_pos (by simp)]
            exact List.cons_ne_nil _ _
        · have hdu : du ≠ '/' := by
            have h2 := List.head?_dropWhile_not (fun a => a == '/') r1
            rw [hu] at h2
            simpa using h2
          exact ⟨du, u2, rfl, hdu⟩
    rcases hcase with rfl | ⟨hs1ne, du, u2, hueq, hdu⟩
    · have hr1sep : ∀ x ∈ r1, x = '/' := by
        rw [hr1split]
        intro x hx
        exact hs1 x (by simpa using hx)
      have h1 : fwdS (s0 ++ (c1 ++ r1)) = [] := by
        rw [fwdS_shape s0 c1 r1 hs0 hc1ne hc1 hr1]
        exact List.dropWhile_eq_nil_iff.mpr fun x hx => by simpa using hr1sep x hx
      have h2 : bwdS (s0 ++ (c1 ++ r1)) = [] := (bwdS_eq_nil_iff _).mpr h1
      rw [h1, h2]
      rfl
    · have hfwd : fwdS (s0 ++ (c1 ++ r1)) = u := by
        rw [fwdS_shape s0 c1 r1 hs0 hc1ne hc1 hr1, hr1split,
          List.dropWhile_append_of_pos (fun a ha => by simpa using hs1 a ha), hueq,
          List.dropWhile_cons_of_neg (by simpa using hdu)]
      by_cases hbu : bwdS u = []
      · have hfu : fwdS u = [] := (bwdS_eq_nil_iff u).mp hbu
        obtain ⟨c2, s2, husplit, hc2ne, hc2, hs2⟩ : ∃ c2 s2, u = c2 ++ s2 ∧ c2 ≠ []
            ∧ (∀ x ∈ c2, x ≠ '/') ∧ (∀ x ∈ s2, x = '/') := by
          refine ⟨u.takeWhile (fun a => a != '/'), u.dropWhile (fun a => a != '/'),
            (List.takeWhile_append_dropWhile _ _).symm, ?_,
            fun x hx => by simpa using List.mem_takeWhile_imp hx, ?_⟩
          · rw [hueq, List.takeWhile_cons_of_pos (by simpa [bne] using hdu)]
            exact List.cons_ne_nil _ _
          · have hdu2 : u.dropWhile (fun a => a == '/') = u := by
              rw [hueq, List.dropWhile_cons_of_neg (by simpa using hdu)]
            rw [fwdS, hdu2] at hfu
            exact fun x hx => by simpa using List.dropWhile_eq_nil_iff.mp hfu x hx
        have hbr : bwdS (s0 ++ (c1 ++ r1)) = s0 ++ c1 := by
          rw [bwdS_eq_rev]
          have hrev : (s0 ++ (c1 ++ r1)).reverse
              = s2.reverse ++ (c2.reverse ++ (s1.reverse ++ (c1.reverse ++ s0.reverse))) := by
            rw [hr1split, husplit]
            simp [List.reverse_append]
          rw [hrev]
          obtain ⟨d1, c1t, hc1e⟩ : ∃ d t, c1.reverse = d :: t := by
            cases hcc : c1.reverse with
            | nil => exact absurd (by simpa using hcc) hc1ne
            | cons d t => exact ⟨d, t, rfl⟩
          rw [fwdS_form s2.reverse c2.reverse s1.reverse (c1.reverse ++ s0.reverse)
            (fun x hx => hs2 x (List.mem_reverse.mp hx))
            (by simpa using hc2ne)
            (fun x hx => hc2 x (List.mem_reverse.mp hx))
            (fun x hx => hs1 x (List.mem_reverse.mp hx))
            (Or.inr ⟨by simpa using hs1ne, d1, c1t ++ s0.reverse,
              by rw [hc1e, List.cons_append],
              hc1 d1 (List.mem_reverse.mp (hc1e ▸ List.mem_cons_self _ _))⟩)]
          simp [List.reverse_append]
        rw [hbr, hfwd, hbu]
        rw [show s0 ++ c1 = s0 ++ (c1 ++ ([] ++ ([] : List Char))) by simp]
        rw [fwdS_form s0 c1 [] [] hs0 hc1ne hc1 (by simp) (Or.inl rfl)]
      · have hXassoc : s0 ++ (c1 ++ r1) = (s0 ++ (c1 ++ s1)) ++ u := by
          rw [hr1split]
          simp
        have hbr : bwdS (s0 ++ (c1 ++ r1)) = s0 ++ (c1 ++ (s1 ++ bwdS u)) := by
          rw [hXassoc, bwdS_append _ _ hbu]
          simp
        rw [hbr, hfwd]
        refine fwdS_form s0 c1 s1 (bwdS u) hs0 hc1ne hc1 hs1 (Or.inr ⟨hs1ne, ?_⟩)
        have hq := head_of_prefix_ne _ _ (bwdS_pref u) hbu
        cases hb : bwdS u with
        | nil => exact absurd hb hbu
        | cons b bt =>
          rw [hb, hueq] at hq
          have hbdu : b = du := by simpa using hq
          exact ⟨b, bt, rfl, by rw [hbdu]; exact hdu⟩

/-! ### Consumption sequences -/

theorem stepDir_spec (c : Components) (d : Bool) (hwf : Wf c) :
    (stepDir c d).path = c.path ∧ Wf (stepDir c d)
      ∧ (stepDir c d).as_path = stepS c.as_path d := by
  cases d with
  | true =>
    obtain ⟨i2, hnext, hle1, hle2, hsl, -⟩ := next_spec c hwf
    have hstep : stepDir c true = ⟨c.path, i2, c.j⟩ := by
      show (Components.next c).2 = _
      rw [hnext]
    refine ⟨by rw [hstep], by rw [hstep]; exact ⟨hle2, hwf.2⟩, ?_⟩
    rw [hstep, hsl]
    rfl
  | false =>
    obtain ⟨j2, hnext, hle1, hle2, hsl, -⟩ := next_back_spec c hwf
    have hstep : stepDir c false = ⟨c.path, c.i, j2⟩ := by
      show (Components.next_back c).2 = _
      rw [hnext]
    refine ⟨by rw [hstep], by rw [hstep]; exact ⟨hle1, Nat.le_trans hle2 hwf.2⟩, ?_⟩
    rw [hstep, hsl]
    rfl

theorem applyDirs_spec (ds : List Bool) : ∀ (c : Components), Wf c →
    (applyDirs c ds).path = c.path ∧ Wf (applyDirs c ds)
      ∧ (applyDirs c ds).as_path = ds.foldl stepS c.as_path := by
  induction ds with
  | nil => exact fun c hwf => ⟨rfl, hwf, rfl⟩
  | cons d ds ih =>
    intro c hwf
    obtain ⟨hp, hw, hs⟩ := stepDir_spec c d hwf
    have h1 : applyDirs c (d :: ds) = applyDirs (stepDir c d) ds := rfl
    obtain ⟨hp2, hw2, hs2⟩ := ih (stepDir c d) hw
    refine ⟨by rw [h1, hp2, hp], by rw [h1]; exact hw2, ?_⟩
    rw [h1, hs2, hs]
    rfl

theorem fwd_bwd_iter_comm (m : Nat) (r : List Char) :
    fwdS (bwdS^[m] r) = bwdS^[m] (fwdS r) := by
  induction m generalizing r with
  | zero => rfl
  | succ m ih =>
    rw [Function.iterate_succ_apply, ih (bwdS r), fwd_bwd_comm,
      ← Function.iterate_succ_apply]

theorem foldl_stepS_eq (ds : List Bool) : ∀ r : List Char,
    ds.foldl stepS r = fwdS^[ds.count true] (bwdS^[ds.count false] r) := by
  induction ds with
  | nil => exact fun r => rfl
  | cons d ds ih =>
    intro r
    cases d with
    | true =>
      have hc1 : (true :: ds).count true = ds.count true + 1 := List.count_cons_self _ _
      have hc2 : (true :: ds).count false = ds.count false :=
        List.count_cons_of_ne (by simp) _
      rw [List.foldl_cons, ih, hc1, hc2]
      show fwdS^[ds.count true] (bwdS^[ds.count false] (stepS r true)) = _
      rw [show stepS r true = fwdS r from rfl]
      conv_rhs => rw [Function.iterate_succ_apply]
      rw [fwd_bwd_iter_comm]
    | false =>
      have hc1 : (false :: ds).count true = ds.count true :=
        List.count_cons_of_ne (by simp) _
      have hc2 : (false :: ds).count false = ds.count false + 1 := List.count_cons_self _ _
      rw [List.foldl_cons, ih, hc1, hc2]
      show fwdS^[ds.count true] (bwdS^[ds.count false] (stepS r false)) = _
      rw [show stepS r false = bwdS r from rfl, ← Function.iterate_succ_apply]

theorem as_path_applyDirs (p : List Char) (ds : List Bool) :
    (applyDirs (Path.components p) ds).as_path
      = fwdS^[ds.count true] (bwdS^[ds.count false] p) := by
  obtain ⟨-, -, hs⟩ := applyDirs_spec ds (Path.components p) (components_wf p)
  rw [hs, components_as_path, foldl_stepS_eq]

/-! ### Building paths by push, and splitting them back -/

theorem push_of_no_sep (buf s : List Char) (hbuf : buf.getLast? ≠ some '/')
    (hnosl : '/' ∉ s) :
    PathBuf.push buf s = buf ++ '/' :: s := by
  rw [PathBuf.push, if_neg hbuf, if_neg ?hh]
  case hh =>
    intro hh
    exact hnosl (List.mem_of_mem_head? (by rw [hh]; rfl))

theorem foldl_push_eq (segs : List (List Char)) : ∀ (buf : List Char),
    buf.getLast? ≠ some '/' → (∀ s ∈ segs, s ≠ [] ∧ '/' ∉ s) →
    segs.foldl PathBuf.push buf = buf ++ (segs.map (fun s => '/' :: s)).flatten := by
  induction segs with
  | nil => intro buf hbuf hsegs; simp
  | cons s segs ih =>
    intro buf hbuf hsegs
    obtain ⟨hne, hnosl⟩ := hsegs s (List.mem_cons_self _ _)
    obtain ⟨c, s2, rfl⟩ : ∃ c t, s = c :: t := by
      cases s with
      | nil => exact absurd rfl hne
      | cons c t => exact ⟨c, t, rfl⟩
    have hlast : (buf ++ '/' :: c :: s2).getLast? ≠ some '/' := by
      have heq : (buf ++ '/' :: c :: s2).getLast? = (c :: s2).getLast? := by
        rw [List.getLast?_append, List.getLast?_cons_cons]
        cases hgl : (c :: s2).getLast? with
        | none => simp at hgl
        | some x => rfl
      rw [heq]
      intro hh
      exact hnosl (List.mem_of_getLast?_eq_some hh)
    rw [List.foldl_cons, push_of_no_sep buf _ hbuf hnosl,
      ih _ hlast (fun t ht => hsegs t (List.mem_cons_of_mem _ ht))]
    simp

theorem splitComps_cons_sep (x : List Char) : splitComps ('/' :: x) = splitComps x := by
  have h1 := splitComps_dropSep ('/' :: x)
  have h2 := splitComps_dropSep x
  rw [← h1, ← h2, List.dropWhile_cons_of_pos (by simp)]

theorem splitComps_sep_append (s0 : List Char) (x : List Char)
    (hs0 : ∀ a ∈ s0, a = '/') :
    splitComps (s0 ++ x) = splitComps x := by
  induction s0 with
  | nil => rfl
  | cons a s0 ih =>
    have ha : a = '/' := hs0 a (List.mem_cons_self _ _)
    rw [List.cons_append, ha, splitComps_cons_sep]
    exact ih (fun b hb => hs0 b (List.mem_cons_of_mem _ hb))

theorem splitComps_build (sv t : List Char) (hne : sv ≠ []) (hnosl : ∀ x ∈ sv, x ≠ '/')
    (ht : t = [] ∨ t.head? = some '/') :
    splitComps (sv ++ t) = sv :: splitComps t := by
  obtain ⟨a, sv2, rfl⟩ : ∃ a t2, sv = a :: t2 := by
    cases sv with
    | nil => exact absurd rfl hne
    | cons a t2 => exact ⟨a, t2, rfl⟩
  have ha : a ≠ '/' := hnosl a (List.mem_cons_self _ _)
  have hd : ((a :: sv2) ++ t).dropWhile (fun x => x == '/') = (a :: sv2) ++ t := by
    rw [List.cons_append, List.dropWhile_cons_of_neg (by simpa using ha)]
  have htw : (t.takeWhile fun x => x != '/') = [] := by
    rcases ht with rfl | hh
    · rfl
    · obtain ⟨t2, rfl⟩ := List.head?_eq_some_iff.mp hh
      rw [List.takeWhile_cons_of_neg (by simp [bne])]
  have htd : (t.dropWhile fun x => x != '/') = t := by
    rcases ht with rfl | hh
    · rfl
    · obtain ⟨t2, rfl⟩ := List.head?_eq_some_iff.mp hh
      rw [List.dropWhile_cons_of_neg (by simp [bne])]
  rw [splitComps_cons_of _ (by rw [hd]; exact List.cons_ne_nil _ _), hd]
  rw [List.takeWhile_append_of_pos (fun x hx => by simpa [bne] using hnosl x hx), htw,
    List.dropWhile_append_of_pos (fun x hx => by simpa [bne] using hnosl x hx), htd,
    List.append_nil]

theorem splitComps_flatten (segs : List (List Char))
    (hsegs : ∀ s ∈ segs, s ≠ [] ∧ '/' ∉ s) :
    splitComps ((segs.map (fun s => '/' :: s)).flatten) = segs := by
  induction segs with
  | nil => rfl
  | cons s segs ih =>
    obtain ⟨hne, hnosl⟩ := hsegs s (List.mem_cons_self _ _)
    rw [List.map_cons, List.flatten_cons, List.cons_append, splitComps_cons_sep]
    rw [splitComps_build s _ hne (fun x hx h => hnosl (h ▸ hx)) ?ht]
    case ht =>
      cases segs with
      | nil => exact Or.inl rfl
      | cons s2 segs2 =>
        right
        rw [List.map_cons, List.flatten_cons]
        obtain ⟨-, hnosl2⟩ := hsegs s2 (List.mem_cons_of_mem _ (List.mem_cons_self _ _))
        rfl
    rw [ih (fun t ht => hsegs t (List.mem_cons_of_mem _ ht))]

/-- C1: for every non-empty sequence of non-empty, separator-free segments,
pushing them in order onto an empty `PathBuf` and collecting the components
of the result reproduces exactly the sequence, in order. -/
theorem pushAll_components_roundtrip (segs : List (List Char))
    (hne : segs ≠ []) (hsegs : ∀ s ∈ segs, s ≠ [] ∧ '/' ∉ s) :
    collectComponents (Path.components (PathBuf.pushAll segs)) = segs := by
  rw [collect_components, PathBuf.pushAll,
    foldl_push_eq segs [] (by simp) hsegs, List.nil_append]
  exact splitComps_flatten segs hsegs

/-- Witness for C1 at a concrete input. -/
theorem pushAll_components_roundtrip_witness :
    ([['a'], ['b', 'c']] : List (List Char)) ≠ []
    ∧ collectComponents (Path.components (PathBuf.pushAll [['a'], ['b', 'c']]))
      = [['a'], ['b', 'c']] :=
  ⟨by decide, pushAll_components_roundtrip [['a'], ['b', 'c']] (by decide) (by decide)⟩

/-! ### The push join point -/

/-- C2 counterexample: pushing a segment that starts with a separator onto a
buffer that ends with one keeps both, so the join point holds two separators,
not exactly one. -/
theorem push_joinSeps_cex :
    ¬ (joinSeps ("a/".data) ("/b".data) = 1) ∧ PathBuf.push ("a/".data) ("/b".data) = "a//b".data := by
  constructor
  · decide
  · decide

/-- C2 amended: `push` appends the segment, inserting a separator exactly
when the buffer does not already end with one and the segment does not start
with one; the join point then holds exactly one separator, except that when
both sides already supply one, both are kept (two); the length never exceeds
the old length plus one separator plus the segment length. -/
theorem push_spec (b s : List Char) :
    (PathBuf.push b s = b ++ s ∨ PathBuf.push b s = b ++ '/' :: s)
    ∧ (PathBuf.push b s = b ++ '/' :: s
        ↔ b.getLast? ≠ some '/' ∧ s.head? ≠ some '/')
    ∧ (¬ (b.getLast? = some '/' ∧ s.head? = some '/') → joinSeps b s = 1)
    ∧ (b.getLast? = some '/' → s.head? = some '/' → joinSeps b s = 2)
    ∧ (PathBuf.push b s).length ≤ b.length + 1 + s.length := by
  by_cases h1 : b.getLast? = some '/'
  · have hp : PathBuf.push b s = b ++ s := by rw [PathBuf.push, if_pos h1]
    have hlen : (PathBuf.push b s).length = b.length + s.length := by
      rw [hp, List.length_append]
    by_cases h2 : s.head? = some '/'
    · refine ⟨Or.inl hp, ?_, ?_, ?_, ?_⟩
      · constructor
        · intro hh
          rw [hp] at hh
          have := congrArg List.length hh
          simp at this
        · rintro ⟨hh, -⟩
          exact absurd h1 hh
      · intro hh
        exact absurd ⟨h1, h2⟩ hh
      · intro _ _
        rw [joinSeps, if_pos h1, if_pos h2, hlen]
        omega
      · rw [hlen]
        omega
    · refine ⟨Or.inl hp, ?_, ?_, ?_, ?_⟩
      · constructor
        · intro hh
          rw [hp] at hh
          have := congrArg List.length hh
          simp at this
        · rintro ⟨hh, -⟩
          exact absurd h1 hh
      · intro _
        rw [joinSeps, if_pos h1, if_neg h2, hlen]
        omega
      · intro _ hh
        exact absurd hh h2
      · rw [hlen]
        omega
  · by_cases h2 : s.head? = some '/'
    · have hp : PathBuf.push b s = b ++ s := by rw [PathBuf.push, if_neg h1, if_pos h2]
      have hlen : (PathBuf.push b s).length = b.length + s.length := by
        rw [hp, List.length_append]
      refine ⟨Or.inl hp, ?_, ?_, ?_, ?_⟩
      · constructor
        · intro hh
          rw [hp] at hh
          have := congrArg List.length hh
          simp at this
        · rintro ⟨-, hh⟩
          exact absurd h2 hh
      · intro _
        rw [joinSeps, if_neg h1, if_pos h2, hlen]
        omega
      · intro hh
        exact absurd hh h1
      · rw [hlen]
        omega
    · have hp : PathBuf.push b s = b ++ '/' :: s := by
        rw [PathBuf.push, if_neg h1, if_neg h2]
      have hlen : (PathBuf.push b s).length = b.length + s.length + 1 := by
        rw [hp, List.length_append, List.length_cons]
        omega
      refine ⟨Or.inr hp, ⟨fun _ => ⟨h1, h2⟩, fun _ => hp⟩, ?_, ?_, ?_⟩
      · intro _
        rw [joinSeps, if_neg h1, if_neg h2, hlen]
        omega
      · intro hh
        exact absurd hh h1
      · rw [hlen]
        omega

/-- Witness for C2 at a concrete input. -/
theorem push_spec_witness :
    ¬ (("a".data).getLast? = some '/' ∧ ("b".data).head? = some '/')
    ∧ joinSeps ("a".data) ("b".data) = 1 :=
  ⟨by decide, (push_spec ("a".data) ("b".data)).2.2.1 (by decide)⟩

/-! ### Order independence of mixed consumption, and the shape of the remainder -/

/-- C3: consuming `k` components from the front and `m` from the back leaves
the same remainder whatever the interleaving order, whenever at least `k + m`
components are available. -/
theorem interleaving_remainder (p : List Char) (k m : Nat) (ds1 ds2 : List Bool)
    (hcount : k + m ≤ (splitComps p).length)
    (h1t : ds1.count true = k) (h1f : ds1.count false = m)
    (h2t : ds2.count true = k) (h2f : ds2.count false = m) :
    (applyDirs (Path.components p) ds1).as_path
      = (applyDirs (Path.components p) ds2).as_path := by
  rw [as_path_applyDirs, as_path_applyDirs, h1t, h1f, h2t, h2f]

/-- Witness for C3 at the specification example. -/
theorem interleaving_remainder_witness :
    1 + 1 ≤ (splitComps ("/a/b/c".data)).length
    ∧ (applyDirs (Path.components ("/a/b/c".data)) [true, false]).as_path
      = (applyDirs (Path.components ("/a/b/c".data)) [false, true]).as_path :=
  ⟨by decide, interleaving_remainder ("/a/b/c".data) 1 1 [true, false] [false, true]
    (by decide) (by decide) (by decide) (by decide) (by decide)⟩

/-- C4 counterexample: before any consumption, `as_path` of `"/a"` is the
whole string `"/a"`, not the interval re-trimmed of its leading separator. -/
theorem as_path_not_retrimmed_cex :
    ¬ ((applyDirs (Path.components ("/a".data)) []).as_path
      = ((applyDirs (Path.components ("/a".data)) []).as_path.dropWhile
          (fun a => a == '/')).rdropWhile (fun a => a == '/')) := by
  decide

theorem fwdS_head (r : List Char) : (fwdS r).head? ≠ some '/' := by
  intro h
  have h2 := List.head?_dropWhile_not (fun a => a == '/')
    ((r.dropWhile (fun a => a == '/')).dropWhile (fun a => a != '/'))
  rw [show (List.dropWhile (fun a => a == '/')
      ((r.dropWhile (fun a => a == '/')).dropWhile (fun a => a != '/'))).head?
      = (fwdS r).head? from rfl, h] at h2
  simp at h2

theorem bwdS_last (r : List Char) : (bwdS r).getLast? ≠ some '/' := by
  intro h
  have hne : bwdS r ≠ [] := by
    intro hh
    rw [hh] at h
    simp at h
  have h3 : ¬ (((bwdS r).getLast hne == '/') = true) :=
    List.rdropWhile_last_not (fun a => a == '/')
      ((r.rdropWhile (fun a => a == '/')).rdropWhile (fun a => a != '/')) hne
  rw [List.getLast?_eq_getLast _ hne] at h
  have : (bwdS r).getLast hne = '/' := by
    exact Option.some.inj h
  rw [this] at h3
  simp at h3

theorem last_of_suffix_ne (q r : List Char) (h : q <:+ r) (hq : q ≠ []) :
    q.getLast? = r.getLast? := by
  obtain ⟨t, rfl⟩ := h
  rw [List.getLast?_append]
  cases hgl : q.getLast? with
  | none => exact absurd (by simpa using hgl) hq
  | some x => rfl

theorem fwdS_preserves_last (r : List Char) (h : r.getLast? ≠ some '/') :
    (fwdS r).getLast? ≠ some '/' := by
  cases hf : fwdS r with
  | nil => simp
  | cons a t =>
    rw [← hf, last_of_suffix_ne _ _ (fwdS_suffix r) (by rw [hf]; exact List.cons_ne_nil _ _)]
    exact h

theorem fwdS_iter_preserves_last (k : Nat) (r : List Char) (h : r.getLast? ≠ some '/') :
    (fwdS^[k] r).getLast? ≠ some '/' := by
  induction k generalizing r with
  | zero => exact h
  | succ k ih =>
    rw [Function.iterate_succ_apply]
    exact ih _ (fwdS_preserves_last r h)

/-- C4 amended: `as_path` returns exactly the raw unconsumed interval
`path[i..j]` (always a valid, possibly empty path value); separators are
eaten at an end only by consumption there, so after at least one forward
step the remainder has no leading separator, and after at least one backward
step no trailing separator. -/
theorem as_path_spec (p : List Char) (ds : List Bool) :
    (applyDirs (Path.components p) ds).as_path
      = ((applyDirs (Path.components p) ds).path.take
          (applyDirs (Path.components p) ds).j).drop (applyDirs (Path.components p) ds).i
    ∧ (true ∈ ds → (applyDirs (Path.components p) ds).as_path.head? ≠ some '/')
    ∧ (false ∈ ds → (applyDirs (Path.components p) ds).as_path.getLast? ≠ some '/') := by
  refine ⟨rfl, ?_, ?_⟩
  · intro hmem
    rw [as_path_applyDirs]
    obtain ⟨k, hk⟩ : ∃ k, ds.count true = k + 1 := by
      have : 0 < ds.count true := List.count_pos_iff.mpr hmem
      exact ⟨ds.count true - 1, by omega⟩
    rw [hk, Function.iterate_succ_apply']
    exact fwdS_head _
  · intro hmem
    rw [as_path_applyDirs]
    obtain ⟨m, hm⟩ : ∃ m, ds.count false = m + 1 := by
      have : 0 < ds.count false := List.count_pos_iff.mpr hmem
      exact ⟨ds.count false - 1, by omega⟩
    rw [hm, Function.iterate_succ_apply']
    exact fwdS_iter_preserves_last _ _ (bwdS_last _)

/-- Witness for C4 (amended) at a concrete input. -/
theorem as_path_spec_witness :
    (true ∈ [true, false]) ∧ (false ∈ [true, false])
    ∧ (applyDirs (Path.components ("/a/b/c".data)) [true, false]).as_path.head? ≠ some '/'
    ∧ (applyDirs (Path.components ("/a/b/c".data)) [true, false]).as_path.getLast? ≠ some '/' :=
  ⟨by decide, by decide,
   (as_path_spec ("/a/b/c".data) [true, false]).2.1 (by decide),
   (as_path_spec ("/a/b/c".data) [true, false]).2.2 (by decide)⟩

/-! ### Dropping the last component -/

theorem splitComps_eq_nil_iff (r : List Char) :
    splitComps r = [] ↔ r.dropWhile (fun a => a == '/') = [] := by
  constructor
  · intro h
    by_contra hne
    rw [splitComps_cons_of r hne] at h
    exact List.cons_ne_nil _ _ h
  · exact splitComps_nil_of r

theorem splitComps_shape (s0 c1 r1 : List Char)
    (hs0 : ∀ x ∈ s0, x = '/') (hc1ne : c1 ≠ []) (hc1 : ∀ x ∈ c1, x ≠ '/')
    (hr1 : r1 = [] ∨ r1.head? = some '/') :
    splitComps (s0 ++ (c1 ++ r1)) = c1 :: splitComps r1 := by
  rw [splitComps_sep_append s0 _ hs0]
  exact splitComps_build c1 r1 hc1ne hc1 hr1

theorem decompTail (r1 : List Char) (hr1 : r1 = [] ∨ ∃ r2, r1 = '/' :: r2) :
    ∃ s1 u, r1 = s1 ++ u ∧ (∀ x ∈ s1, x = '/')
      ∧ (u = [] ∨ (s1 ≠ [] ∧ ∃ du u2, u = du :: u2 ∧ du ≠ '/')) := by
  refine ⟨r1.takeWhile (fun a => a == '/'), r1.dropWhile (fun a => a == '/'),
    (List.takeWhile_append_dropWhile _ _).symm,
    fun x hx => by simpa using List.mem_takeWhile_imp hx, ?_⟩
  cases hu : r1.dropWhile (fun a => a == '/') with
  | nil => exact Or.inl rfl
  | cons du u2 =>
    right
    constructor
    · rcases hr1 with rfl | ⟨r2, rfl⟩
      · simp at hu
      · rw [List.takeWhile_cons_of_pos (by simp)]
        exact List.cons_ne_nil _ _
    · have hdu : du ≠ '/' := by
        have h2 := List.head?_dropWhile_not (fun a => a == '/') r1
        rw [hu] at h2
        simpa using h2
      exact ⟨du, u2, rfl, hdu⟩

theorem oneCompDecomp (u : List Char) (du : Char) (u2 : List Char)
    (hueq : u = du :: u2) (hdu : du ≠ '/') (hfu : fwdS u = []) :
    ∃ c2 s2, u = c2 ++ s2 ∧ c2 ≠ [] ∧ (∀ x ∈ c2, x ≠ '/') ∧ (∀ x ∈ s2, x = '/') := by
  refine ⟨u.takeWhile (fun a => a != '/'), u.dropWhile (fun a => a != '/'),
    (List.takeWhile_append_dropWhile _ _).symm, ?_,
    fun x hx => by simpa using List.mem_takeWhile_imp hx, ?_⟩
  · rw [hueq, List.takeWhile_cons_of_pos (by simpa [bne] using hdu)]
    exact List.cons_ne_nil _ _
  · have hdu2 : u.dropWhile (fun a => a == '/') = u := by
      rw [hueq, List.dropWhile_cons_of_neg (by simpa using hdu)]
    rw [fwdS, hdu2] at hfu
    exact fun x hx => by simpa using List.dropWhile_eq_nil_iff.mp hfu x hx

theorem bwdS_last_comp (s0 c1 s1 c2 s2 : List Char)
    (hs0 : ∀ x ∈ s0, x = '/') (hc1ne : c1 ≠ []) (hc1 : ∀ x ∈ c1, x ≠ '/')
    (hs1 : ∀ x ∈ s1, x = '/') (hs1ne : s1 ≠ [])
    (hc2ne : c2 ≠ []) (hc2 : ∀ x ∈ c2, x ≠ '/') (hs2 : ∀ x ∈ s2, x = '/') :
    bwdS (s0 ++ (c1 ++ (s1 ++ (c2 ++ s2)))) = s0 ++ c1 := by
  rw [bwdS_eq_rev]
  have hrev : (s0 ++ (c1 ++ (s1 ++ (c2 ++ s2)))).reverse
      = s2.reverse ++ (c2.reverse ++ (s1.reverse ++ (c1.reverse ++ s0.reverse))) := by
    simp [List.reverse_append]
  rw [hrev]
  obtain ⟨d1, c1t, hc1e⟩ : ∃ d t, c1.reverse = d :: t := by
    cases hcc : c1.reverse with
    | nil => exact absurd (by simpa using hcc) hc1ne
    | cons d t => exact ⟨d, t, rfl⟩
  rw [fwdS_form s2.reverse c2.reverse s1.reverse (c1.reverse ++ s0.reverse)
    (fun x hx => hs2 x (List.mem_reverse.mp hx))
    (by simpa using hc2ne)
    (fun x hx => hc2 x (List.mem_reverse.mp hx))
    (fun x hx => hs1 x (List.mem_reverse.mp hx))
    (Or.inr ⟨by simpa using hs1ne, d1, c1t ++ s0.reverse,
      by rw [hc1e, List.cons_append],
      hc1 d1 (List.mem_reverse.mp (hc1e ▸ List.mem_cons_self _ _))⟩)]
  simp [List.reverse_append]

theorem splitComps_bwdS_aux : ∀ (n : Nat) (r : List Char), r.length ≤ n →
    splitComps (bwdS r) = (splitComps r).dropLast := by
  intro n
  induction n with
  | zero =>
    intro r hlen
    have hr : r = [] := List.length_eq_zero.mp (Nat.le_zero.mp hlen)
    subst hr
    rfl
  | succ n ih =>
    intro r hlen
    rcases decompPath r with hall | ⟨s0, c1, r1, hre, hs0, hc1ne, hc1, hr1⟩
    · have h1 : fwdS r = [] :=
        fwdS_of_sep r (List.dropWhile_eq_nil_iff.mpr fun x hx => by simpa using hall x hx)
      have h2 : bwdS r = [] := (bwdS_eq_nil_iff r).mpr h1
      have h3 : splitComps r = [] :=
        splitComps_nil_of r (List.dropWhile_eq_nil_iff.mpr fun x hx => by simpa using hall x hx)
      rw [h2, h3]
      rfl
    · subst hre
      obtain ⟨s1, u, hr1split, hs1, hcase⟩ := decompTail r1 hr1
      have hr1head : r1 = [] ∨ r1.head? = some '/' := by
        rcases hr1 with rfl | ⟨r2, rfl⟩
        · exact Or.inl rfl
        · exact Or.inr rfl
      have hsplit : splitComps (s0 ++ (c1 ++ r1)) = c1 :: splitComps r1 :=
        splitComps_shape s0 c1 r1 hs0 hc1ne hc1 hr1head
      rcases hcase with rfl | ⟨hs1ne, du, u2, hueq, hdu⟩
      · have hrsep : ∀ x ∈ r1, x = '/' := by
          rw [hr1split]
          intro x hx
          exact hs1 x (by simpa using hx)
        have h1 : fwdS (s0 ++ (c1 ++ r1)) = [] := by
          rw [fwdS_shape s0 c1 r1 hs0 hc1ne hc1 hr1]
          exact List.dropWhile_eq_nil_iff.mpr fun x hx => by simpa using hrsep x hx
        have h2 : bwdS (s0 ++ (c1 ++ r1)) = [] := (bwdS_eq_nil_iff _).mpr h1
        have h3 : splitComps r1 = [] :=
          splitComps_nil_of r1 (List.dropWhile_eq_nil_iff.mpr fun x hx => by simpa using hrsep x hx)
        rw [h2, hsplit, h3]
        rfl
      · have hfwd : fwdS (s0 ++ (c1 ++ r1)) = u := by
          rw [fwdS_shape s0 c1 r1 hs0 hc1ne hc1 hr1, hr1split,
            List.dropWhile_append_of_pos (fun a ha => by simpa using hs1 a ha), hueq,
            List.dropWhile_cons_of_neg (by simpa using hdu)]
        have hscu : splitComps r1 = splitComps u := by
          rw [hr1split]
          exact splitComps_sep_append s1 u hs1
        have hsune : splitComps u ≠ [] := by
          intro hh
          have h4 := (splitComps_eq_nil_iff u).mp hh
          rw [hueq, List.dropWhile_cons_of_neg (by simpa using hdu)] at h4
          exact List.cons_ne_nil _ _ h4
        by_cases hbu : bwdS u = []
        · have hfu : fwdS u = [] := (bwdS_eq_nil_iff u).mp hbu
          obtain ⟨c2, s2, husplit, hc2ne, hc2, hs2⟩ := oneCompDecomp u du u2 hueq hdu hfu
          have hbr : bwdS (s0 ++ (c1 ++ r1)) = s0 ++ c1 := by
            rw [hr1split, husplit]
            exact bwdS_last_comp s0 c1 s1 c2 s2 hs0 hc1ne hc1 hs1 hs1ne hc2ne hc2 hs2
          have hscu2 : splitComps u = [c2] := by
            rw [husplit, splitComps_build c2 s2 hc2ne hc2 ?hs2head]
            · rw [splitComps_nil_of s2
                (List.dropWhile_eq_nil_iff.mpr fun x hx => by simpa using hs2 x hx)]
            case hs2head =>
              cases s2 with
              | nil => exact Or.inl rfl
              | cons e t =>
                right
                rw [show e = '/' from hs2 e (List.mem_cons_self _ _)]
                rfl
          have hsc1 : splitComps (s0 ++ c1) = [c1] := by
            rw [splitComps_sep_append s0 c1 hs0]
            have h5 := splitComps_build c1 [] hc1ne hc1 (Or.inl rfl)
            rw [List.append_nil] at h5
            rw [h5]
            rfl
          rw [hbr, hsplit, hscu, hscu2, hsc1]
          rfl
        · have hbr : bwdS (s0 ++ (c1 ++ r1)) = s0 ++ (c1 ++ (s1 ++ bwdS u)) := by
            rw [show s0 ++ (c1 ++ r1) = (s0 ++ (c1 ++ s1)) ++ u by rw [hr1split]; simp,
              bwdS_append _ _ hbu]
            simp
          have hss : splitComps (s0 ++ (c1 ++ (s1 ++ bwdS u))) = c1 :: splitComps (bwdS u) := by
            rw [splitComps_shape s0 c1 (s1 ++ bwdS u) hs0 hc1ne hc1 ?hh]
            · rw [splitComps_sep_append s1 _ hs1]
            case hh =>
              right
              obtain ⟨e, s1t, rfl⟩ : ∃ e t, s1 = e :: t := by
                cases s1 with
                | nil => exact absurd rfl hs1ne
                | cons e t => exact ⟨e, t, rfl⟩
              rw [List.cons_append,
                show e = '/' from hs1 e (List.mem_cons_self _ _)]
              rfl
          have hulen : u.length ≤ n := by
            have hl1 : (s0 ++ (c1 ++ r1)).length = s0.length + (c1.length + r1.length) := by
              rw [List.length_append, List.length_append]
            have hl2 : r1.length = s1.length + u.length := by
              rw [hr1split, List.length_append]
            have hl3 : 0 < c1.length := List.length_pos.mpr hc1ne
            omega
          rw [hbr, hsplit, hscu, hss, ih u hulen]
          cases hsx : splitComps u with
          | nil => exact absurd hsx hsune
          | cons x xs => rfl

theorem splitComps_bwdS (r : List Char) :
    splitComps (bwdS r) = (splitComps r).dropLast :=
  splitComps_bwdS_aux r.length r (Nat.le_refl _)

theorem backCompS_eq_nil_iff (r : List Char) :
    backCompS r = [] ↔ r.dropWhile (fun a => a == '/') = [] := by
  constructor
  · intro h
    by_cases hrd : r.rdropWhile (fun a => a == '/') = []
    · exact List.dropWhile_eq_nil_iff.mpr (List.rdropWhile_eq_nil_iff.mp hrd)
    · exfalso
      have hlast := List.rdropWhile_last_not (fun a => a == '/') r hrd
      have h2 := List.rtakeWhile_eq_nil_iff.mp h hrd
      simp [bne] at h2
      simp at hlast
      exact hlast h2
  · intro h
    have hrd : r.rdropWhile (fun a => a == '/') = [] :=
      List.rdropWhile_eq_nil_iff.mpr (List.dropWhile_eq_nil_iff.mp h)
    rw [backCompS, hrd]
    rfl

theorem parent_eq (p : List Char) :
    Path.parent p = (if backCompS p = [] then none else some (bwdS p)) := by
  obtain ⟨j2, hnext, hle1, hle2, hsl, -⟩ := next_back_spec (Path.components p) (components_wf p)
  rw [components_as_path] at hnext hsl
  by_cases hnil : backCompS p = []
  · rw [if_pos hnil] at hnext
    rw [Path.parent, hnext, if_pos hnil]
  · rw [if_neg hnil] at hnext
    rw [Path.parent, hnext, if_neg hnil]
    show some (Components.as_path ⟨(Path.components p).path, (Path.components p).i, j2⟩)
      = some (bwdS p)
    rw [hsl]

/-- C5: `parent` drops the last component; it is `None` exactly when the path
has zero components; dropping the only component gives `Some` of the explicit
empty path, not `None`. -/
theorem parent_spec (p : List Char) :
    (Path.parent p = none ↔ splitComps p = [])
    ∧ (∀ q, Path.parent p = some q → splitComps q = (splitComps p).dropLast)
    ∧ ((splitComps p).length = 1 → Path.parent p = some []) := by
  refine ⟨?_, ?_, ?_⟩
  · rw [parent_eq]
    by_cases hnil : backCompS p = []
    · rw [if_pos hnil]
      constructor
      · intro _
        exact (splitComps_eq_nil_iff p).mpr ((backCompS_eq_nil_iff p).mp hnil)
      · intro _
        rfl
    · rw [if_neg hnil]
      constructor
      · intro hh
        exact absurd hh (by simp)
      · intro hh
        exact absurd ((backCompS_eq_nil_iff p).mpr ((splitComps_eq_nil_iff p).mp hh)) hnil
  · intro q hq
    rw [parent_eq] at hq
    by_cases hnil : backCompS p = []
    · rw [if_pos hnil] at hq
      exact absurd hq (by simp)
    · rw [if_neg hnil] at hq
      rw [(Option.some.inj hq).symm]
      exact splitComps_bwdS p
  · intro hone
    have hne : splitComps p ≠ [] := by
      intro hh
      rw [hh] at hone
      simp at hone
    have hbne : backCompS p ≠ [] := fun hh =>
      hne ((splitComps_eq_nil_iff p).mpr ((backCompS_eq_nil_iff p).mp hh))
    rw [parent_eq, if_neg hbne]
    have hdne : p.dropWhile (fun a => a == '/') ≠ [] := fun hh =>
      hne (splitComps_nil_of p hh)
    have hcons := splitComps_cons_of p hdne
    rw [hcons] at hone
    rw [List.length_cons] at hone
    have h6 : splitComps ((p.dropWhile (fun a => a == '/')).dropWhile (fun a => a != '/')) = [] :=
      List.length_eq_zero.mp (by omega)
    have hfnil : fwdS p = [] := (splitComps_eq_nil_iff _).mp h6
    rw [(bwdS_eq_nil_iff p).mpr hfnil]

/-- Witness for C5 at the specification examples. -/
theorem parent_spec_witness :
    Path.parent ("/a/b/c".data) = some ("/a/b".data)
    ∧ splitComps ("/a/b".data) = (splitComps ("/a/b/c".data)).dropLast
    ∧ Path.parent ("/a".data) = some [] :=
  ⟨by decide, (parent_spec ("/a/b/c".data)).2.1 ("/a/b".data) (by decide),
   (parent_spec ("/a".data)).2.2 (by decide)⟩

/-! ### file_name and extension -/

theorem file_name_eq (p : List Char) :
    Path.file_name p = (if backCompS p = [] then none else some (backCompS p)) := by
  obtain ⟨j2, hnext, -, -, -, -⟩ := next_back_spec (Path.components p) (components_wf p)
  rw [components_as_path] at hnext
  rw [Path.file_name, hnext]

theorem rtakeWhile_dot_spec (f : List Char) (hdot : '.' ∈ f) :
    ∃ pre, f = pre ++ '.' :: (f.rtakeWhile (fun a => a != '.'))
      ∧ '.' ∉ f.rtakeWhile (fun a => a != '.') := by
  have happ := rdropWhile_append_rtakeWhile (fun a => a != '.') f
  have hne : f.rdropWhile (fun a => a != '.') ≠ [] := by
    intro hh
    have hall := List.rdropWhile_eq_nil_iff.mp hh
    have := hall '.' hdot
    simp at this
  have hlast : (f.rdropWhile (fun a => a != '.')).getLast hne = '.' := by
    have h2 := List.rdropWhile_last_not (fun a => a != '.') f hne
    simpa [bne] using h2
  refine ⟨(f.rdropWhile (fun a => a != '.')).dropLast, ?_, ?_⟩
  · conv_lhs => rw [← happ, ← List.dropLast_concat_getLast hne, hlast]
    rw [List.append_assoc]
    rfl
  · intro hmem
    have := List.mem_rtakeWhile_imp hmem
    simp at this

theorem rtakeWhile_after_dot (pre e : List Char) (hnd : '.' ∉ e) :
    (pre ++ '.' :: e).rtakeWhile (fun a => a != '.') = e := by
  rw [List.rtakeWhile, List.reverse_append, List.reverse_cons, List.append_assoc,
    List.singleton_append,
    List.takeWhile_append_of_pos (fun a ha => by
      have ham : a ∈ e := List.mem_reverse.mp ha
      have hane : a ≠ '.' := fun hh => hnd (hh ▸ ham)
      simpa [bne] using hane),
    List.takeWhile_cons_of_neg (by simp [bne]), List.append_nil, List.reverse_reverse]

/-- C6: `extension` is computed from `file_name` by splitting at the last
dot: absent when there is no file name or the file name has no dot;
`Some ""` on a trailing dot; otherwise exactly `Some` of the text after the
last dot of the file name — both directions: any `Some` arises that way, and
any file name of the form `pre ++ "." ++ e` with no dot in `e` forces
`Some e` (so a dot in an earlier component is never consulted). -/
theorem extension_cases (p : List Char) :
    (Path.file_name p = none → Path.extension p = none)
    ∧ (∀ f, Path.file_name p = some f → '.' ∉ f → Path.extension p = none)
    ∧ (∀ f, Path.file_name p = some f → f.getLast? = some '.' → Path.extension p = some [])
    ∧ (∀ e, Path.extension p = some e →
        ∃ f pre, Path.file_name p = some f ∧ f = pre ++ '.' :: e ∧ '.' ∉ e)
    ∧ (∀ f pre e, Path.file_name p = some f → f = pre ++ '.' :: e → '.' ∉ e →
        Path.extension p = some e) := by
  refine ⟨?_, ?_, ?_, ?_, ?_⟩
  · intro h
    rw [Path.extension, h]
    rfl
  · intro f hf hdot
    rw [Path.extension, hf]
    show (if '.' ∈ f then some (f.rtakeWhile (fun a => a != '.')) else none) = none
    rw [if_neg hdot]
  · intro f hf hlast
    rw [Path.extension, hf]
    have hdot : '.' ∈ f := List.mem_of_getLast?_eq_some hlast
    show (if '.' ∈ f then some (f.rtakeWhile (fun a => a != '.')) else none) = some []
    rw [if_pos hdot, List.rtakeWhile_eq_nil_iff.mpr ?hl]
    case hl =>
      intro hl
      rw [List.getLast?_eq_getLast _ hl] at hlast
      have := Option.some.inj hlast
      simp [this]
  · intro e he
    cases hf : Path.file_name p with
    | none =>
      rw [Path.extension, hf] at he
      exact absurd he (by simp)
    | some f =>
      rw [Path.extension, hf] at he
      have he2 : (if '.' ∈ f then some (f.rtakeWhile (fun a => a != '.')) else none)
          = some e := he
      by_cases hdot : '.' ∈ f
      · rw [if_pos hdot] at he2
        have hee : f.rtakeWhile (fun a => a != '.') = e := Option.some.inj he2
        obtain ⟨pre, hpre, hnd⟩ := rtakeWhile_dot_spec f hdot
        rw [hee] at hpre hnd
        exact ⟨f, pre, rfl, hpre, hnd⟩
      · rw [if_neg hdot] at he2
        exact absurd he2 (by simp)
  · intro f pre e hf hfe hnd
    rw [Path.extension, hf]
    have hdot : '.' ∈ f := by
      rw [hfe]
      exact List.mem_append_right _ (List.mem_cons_self _ _)
    show (if '.' ∈ f then some (f.rtakeWhile (fun a => a != '.')) else none) = some e
    rw [if_pos hdot, hfe, rtakeWhile_after_dot pre e hnd]

/-- Witness for C6 at the specification examples, including the positive
last-dot-wins case. -/
theorem extension_cases_witness :
    Path.extension ("/a/b.txt/c".data) = none
    ∧ Path.extension ("/a/b/c.".data) = some []
    ∧ Path.extension ("/a/b/c.txt.png".data) = some ("png".data) :=
  ⟨(extension_cases ("/a/b.txt/c".data)).2.1 ['c'] (by decide) (by decide),
   (extension_cases ("/a/b/c.".data)).2.2.1 ['c', '.'] (by decide) (by decide),
   (extension_cases ("/a/b/c.txt.png".data)).2.2.2.2 ("c.txt.png".data) ("c.txt".data)
     ("png".data) (by decide) (by decide) (by decide)⟩

/-- C10: a file name that begins with a dot and has no other dot is treated
as a bare extension: `extension` is `Some` of everything after the leading
dot, not `None`. -/
theorem extension_leading_dot (p : List Char) (f2 : List Char)
    (hf : Path.file_name p = some ('.' :: f2)) (hnd : '.' ∉ f2) :
    Path.extension p = some f2 := by
  rw [Path.extension, hf]
  have hdot : '.' ∈ '.' :: f2 := List.mem_cons_self _ _
  show (if '.' ∈ '.' :: f2 then some (('.' :: f2).rtakeWhile (fun a => a != '.')) else none)
    = some f2
  rw [if_pos hdot]
  rw [show ('.' :: f2).rtakeWhile (fun a => a != '.') = f2 from ?rt]
  case rt =>
    rw [List.rtakeWhile, List.reverse_cons,
      List.takeWhile_append_of_pos (fun a ha => by
        have ham : a ∈ f2 := List.mem_reverse.mp ha
        have hane : a ≠ '.' := fun hh => hnd (hh ▸ ham)
        simpa [bne] using hane),
      List.takeWhile_cons_of_neg (by simp [bne]), List.append_nil, List.reverse_reverse]

/-- Witness for C10 at a concrete input. -/
theorem extension_leading_dot_witness :
    Path.extension ("/a/.txt".data) = some ("txt".data) :=
  extension_leading_dot ("/a/.txt".data) ("txt".data) (by decide) (by decide)

/-! ### The filesystem conveniences and the native backend -/

/-- C7: the derived predicates never propagate an error: `exists` is true
exactly when `file_type` succeeds, `is_file` / `is_dir` exactly when it
succeeds with the matching kind, and any failure collapses to `false`. -/
theorem fs_convenience_spec {π ε : Type} (fileType : π → Except ε FileType) (p : π) :
    (fsExists fileType p = true ↔ ∃ t, fileType p = Except.ok t)
    ∧ (fsIsFile fileType p = true ↔ fileType p = Except.ok FileType.File)
    ∧ (fsIsDir fileType p = true ↔ fileType p = Except.ok FileType.Dir)
    ∧ (∀ e, fileType p = Except.error e →
        fsExists fileType p = false ∧ fsIsFile fileType p = false
          ∧ fsIsDir fileType p = false) := by
  cases hft : fileType p with
  | ok t =>
    cases t <;>
      simp [fsExists, fsIsFile, fsIsDir, unwrapOr, hft, Except.map, Except.isOk,
        Except.toBool, FileType.is_file, FileType.is_dir]
  | error e =>
    simp [fsExists, fsIsFile, fsIsDir, unwrapOr, hft, Except.map, Except.isOk, Except.toBool]

/-- Witness for C7 at a concrete failing backend. -/
theorem fs_convenience_spec_witness :
    fsExists (fun _ : Unit => (Except.error () : Except Unit FileType)) () = false
    ∧ fsIsFile (fun _ : Unit => (Except.error () : Except Unit FileType)) () = false
    ∧ fsIsDir (fun _ : Unit => (Except.error () : Except Unit FileType)) () = false :=
  (fs_convenience_spec (fun _ : Unit => (Except.error () : Except Unit FileType)) ()).2.2.2
    () rfl

theorem drainDir_eq_filterMap {ε : Type} (n : Native)
    (l : List (Except ε (List (List Char)))) :
    drainDir n l
      = l.filterMap (fun res => ((Except.toOption res).bind n.unpath).map n.qualified) := by
  induction l with
  | nil => rfl
  | cons res rest ih =>
    cases hm : (Except.toOption res).bind n.unpath with
    | some p =>
      simp only [drainDir, hm, List.filterMap_cons, Option.map_some']
      rw [ih]
    | none =>
      simp only [drainDir, hm, List.filterMap_cons, Option.map_none']
      exact ih

/-- The listing really is the iteration of `ReadDir::next`: a `none` step
ends it, a `some` step contributes exactly its entry. -/
theorem drainDir_step {ε : Type} (n : Native) (l : List (Except ε (List (List Char)))) :
    (readDirStep n l = none → drainDir n l = [])
    ∧ (∀ q rest, readDirStep n l = some (q, rest) →
        drainDir n l = q :: drainDir n rest) := by
  induction l with
  | nil =>
    refine ⟨fun _ => rfl, fun q rest h => ?_⟩
    simp [readDirStep] at h
  | cons res rest ih =>
    cases hm : (Except.toOption res).bind n.unpath with
    | some p =>
      constructor
      · intro h
        simp [readDirStep, hm] at h
      · intro q r2 h
        simp only [readDirStep, hm] at h
        obtain ⟨hq, hr⟩ := Prod.mk.injEq .. ▸ Option.some.inj h
        simp only [drainDir, hm]
        rw [← hq, ← hr]
    | none =>
      constructor
      · intro h
        simp only [readDirStep, hm] at h
        simp only [drainDir, hm]
        exact ih.1 h
      · intro q r2 h
        simp only [readDirStep, hm] at h
        simp only [drainDir, hm]
        exact ih.2 q r2 h

theorem drainDir_parent {ε : Type} (n : Native) (l : List (Except ε (List (List Char)))) :
    ∀ q ∈ drainDir n l, q.parent = n := by
  rw [drainDir_eq_filterMap]
  intro q hq
  obtain ⟨res, -, hres⟩ := List.mem_filterMap.mp hq
  cases hm : (Except.toOption res).bind n.unpath with
  | none => rw [hm] at hres; exact absurd hres (by simp)
  | some p =>
    rw [hm] at hres
    have : n.qualified p = q := by simpa using hres
    rw [← this]
    rfl

/-- C8: a failure to open the directory fails the whole `read_dir` call, but
within a successful listing every entry that errors or cannot be re-expressed
under the root is silently dropped, and every translated entry is yielded as
a `QPath` bound to the same backend. -/
theorem read_dir_spec {ε : Type} (n : Native)
    (realRD : List (List Char) → Except ε (List (Except ε (List (List Char)))))
    (p : List Char) :
    (∀ e, realRD (n.path p) = Except.error e → n.read_dir realRD p = Except.error e)
    ∧ (∀ entries, realRD (n.path p) = Except.ok entries →
        n.read_dir realRD p = Except.ok (entries, n)
        ∧ drainDir n entries
          = entries.filterMap (fun res => ((Except.toOption res).bind n.unpath).map n.qualified)
        ∧ ∀ q ∈ drainDir n entries, q.parent = n) := by
  constructor
  · intro e he
    rw [Native.read_dir, he]
    rfl
  · intro entries he
    refine ⟨?_, drainDir_eq_filterMap n entries, drainDir_parent n entries⟩
    rw [Native.read_dir, he]
    rfl

/-- Witness for C8 at a concrete backend and listing. -/
theorem read_dir_spec_witness :
    Native.read_dir (⟨[['r']]⟩ : Native)
        (fun _ => (Except.error () : Except Unit (List (Except Unit (List (List Char)))))) []
      = Except.error ()
    ∧ drainDir (⟨[['r']]⟩ : Native)
        ([Except.ok [['r'], ['x']], Except.error (), Except.ok [['z']]]
          : List (Except Unit (List (List Char))))
      = [Native.qualified ⟨[['r']]⟩ ['x']] :=
  ⟨(read_dir_spec (⟨[['r']]⟩ : Native) (fun _ => Except.error ()) []).1 () rfl,
   by decide⟩

theorem foldl_append_singleton (l : List (List Char)) : ∀ (acc : List (List Char)),
    l.foldl (fun acc part => acc ++ [part]) acc = acc ++ l := by
  induction l with
  | nil => intro acc; simp
  | cons x l ih =>
    intro acc
    rw [List.foldl_cons, ih (acc ++ [x])]
    simp

theorem native_path_eq (n : Native) (p : List Char) :
    n.path p = n.inner ++ splitComps p := by
  rw [Native.path, collect_components, foldl_append_singleton]

theorem splitComps_renderReal (segs : List (List Char))
    (hsegs : ∀ s ∈ segs, s ≠ [] ∧ '/' ∉ s) :
    splitComps (renderReal segs) = segs := by
  induction segs with
  | nil => rfl
  | cons s rest ih =>
    obtain ⟨hne, hnosl⟩ := hsegs s (List.mem_cons_self _ _)
    cases rest with
    | nil =>
      rw [show renderReal [s] = s from rfl]
      have h5 := splitComps_build s [] hne (fun x hx h => hnosl (h ▸ hx)) (Or.inl rfl)
      rw [List.append_nil] at h5
      rw [h5]
      rfl
    | cons s2 rest2 =>
      rw [show renderReal (s :: s2 :: rest2) = s ++ '/' :: renderReal (s2 :: rest2) from rfl]
      rw [splitComps_build s ('/' :: renderReal (s2 :: rest2)) hne
        (fun x hx h => hnosl (h ▸ hx)) (Or.inr rfl)]
      rw [splitComps_cons_sep, ih (fun t ht => hsegs t (List.mem_cons_of_mem _ ht))]

/-- C9: the real path resolved for a virtual path is exactly the root with
the path's components joined onto it in order, every component an ordinary
name; and any real path a listing translates (one whose well-formed
components extend the root) resolves back to itself, entries outside the
root being omitted. -/
theorem native_resolution_spec (n : Native) :
    (∀ p, n.path p = n.inner ++ splitComps p)
    ∧ (∀ r q, (∀ part ∈ r, part ≠ [] ∧ '/' ∉ part) → n.unpath r = some q →
        n.path q = r)
    ∧ (∀ r, ¬ (n.inner <+: r) → n.unpath r = none) := by
  refine ⟨native_path_eq n, ?_, ?_⟩
  · intro r q hwf hq
    rw [Native.unpath] at hq
    by_cases hpre : n.inner <+: r
    · rw [if_pos hpre] at hq
      rw [native_path_eq, (Option.some.inj hq).symm]
      have hsuffwf : ∀ part ∈ r.drop n.inner.length, part ≠ [] ∧ '/' ∉ part :=
        fun part hp => hwf part ((List.drop_sublist _ _).subset hp)
      rw [splitComps_renderReal _ hsuffwf]
      obtain ⟨t, rfl⟩ := hpre
      rw [List.drop_left' rfl]
    · rw [if_neg hpre] at hq
      exact absurd hq (by simp)
  · intro r hpre
    rw [Native.unpath, if_neg hpre]

/-- Witness for C9 at a concrete root and listing entry. -/
theorem native_resolution_spec_witness :
    Native.path (⟨[['r']]⟩ : Native) ("a/b".data) = [['r'], ['a'], ['b']] :=
  (native_resolution_spec ⟨[['r']]⟩).2.1 [['r'], ['a'], ['b']] ("a/b".data)
    (by decide) (by decide)

end Rio